import Mathlib

/-!
Verification development for the closed-enumeration construction protocol of
the `immutable-enums` repository.

The repository contains two variants of the same protocol:
* `src/ts-enums.ts` — identity-based: `EnumValue` objects are mutated in place
  at closure time (propName stamped via `Object.defineProperty`, then
  `Object.freeze`), and the enclosing `Enum` instance is frozen and registered
  in a process-wide `Map` from name to value array.
* `src/immutable-enums.ts` — value-based: `EnumValue` is a factory producing
  `immutable.Record` subclasses; closure produces new records via `merge` and
  rebinds them into the enumeration fields.

The shallow embedding below models JavaScript objects with identity (the
`EnumValue` heap and the array heap, both addressed by allocation-order `Nat`
references) so that identity claims (`byPropName` returns the very same
object, `values` returns a defensive copy) are faithfully statable.
`Object.freeze` is modelled by a `frozen` flag; per ECMAScript strict-mode
semantics (TypeScript modules compile to strict mode), an assignment to a
property of a frozen object throws a `TypeError`, which the error kind
`JsErr.frozenMutation` stands for.  The per-class `INITIALIZED` own-property
stamp and the per-class `sizes` counters are keyed by the runtime identity of
the concrete class (`this.constructor`), modelled as a `Nat` type tag.
-/

/-- Error kinds thrown by the protocol.  Each constructor corresponds to one
`throw` site of the source (or, for `frozenMutation` and `typeError`, to the
strict-mode `TypeError` raised by the JavaScript runtime itself). -/
inductive JsErr where
  /-- "EnumValue classes can not be instantiated individually" — thrown by the
  `EnumValue` constructor when the concrete subtype carries the `INITIALIZED`
  own property. -/
  | postClosureInstantiation
  /-- "Duplicate name: ..." — thrown by the static `Enum.initEnum` when the
  registry already holds the name. -/
  | duplicateName (nm : String)
  /-- "All descriptions must be unique for a given enum type. Instead, there
  are multiples in ..." — thrown by `Enum.enumValuesFromObject`. -/
  | duplicateDescription (nm : String)
  /-- Strict-mode `TypeError` from assigning to a property of a frozen
  object. -/
  | frozenMutation
  /-- Other runtime `TypeError` (e.g. `Object.defineProperty` on a frozen
  object, or touching an invalid reference). -/
  | typeError
deriving DecidableEq

/-- One `EnumValue` object of `ts-enums.ts` (the identity-based variant):
`_description`, `_ordinal`, `_propName` (undefined until closure), the runtime
identity of `this.constructor` (`ctorType`) and its `name` (`ctorName`), plus
the `Object.freeze` state of the object. -/
structure EnumValue where
  ctorType : Nat
  ctorName : String
  description : String
  ordinal : Nat
  propName : Option String
  frozen : Bool
deriving DecidableEq

/-- A field value of a concrete `Enum` subclass instance: either a reference
to an `EnumValue` object on the heap (for which the default classifier
`val instanceof EnumValue` holds) or some other value (for which it does
not). -/
inductive FieldVal where
  | member (r : Nat)
  | other
deriving DecidableEq

/-- A concrete `Enum<T>` subclass instance: its private `name` (undefined
until `initEnum` assigns it), its own enumerable fields in
declaration/assignment order (as enumerated by `Object.getOwnPropertyNames`),
and its `Object.freeze` state. -/
structure EnumInst where
  name : Option String
  fields : List (String × FieldVal)
  frozen : Bool
deriving DecidableEq

/-- The process-wide mutable state of `ts-enums.ts`:
* `heap` — all constructed `EnumValue` objects, addressed by allocation order;
* `sizes` — the static `EnumValue.sizes : Map<Function, number>` keyed by the
  type tag of the concrete class;
* `closed` — the set of type tags carrying the `INITIALIZED` own property;
* `registry` — the static `Enum.enumValues : Map<string, IEnumValue[]>`; each
  entry points at an array object in `arrays`;
* `arrays` — the array heap (arrays are mutable JavaScript objects, so the
  registry-backing array and the defensive copies have distinct identity). -/
structure GState where
  heap : List EnumValue
  sizes : List (Nat × Nat)
  closed : List Nat
  registry : List (String × Nat)
  arrays : List (List Nat)
deriving DecidableEq

/-- Lookup in a string-keyed `Map` (first binding wins; the protocol never
inserts a key twice). -/
def lookupS {α : Type} (m : List (String × α)) (k : String) : Option α :=
  (m.find? (fun p => p.1 == k)).map (·.2)

/-- Lookup in a `Nat`-keyed `Map`. -/
def lookupN {α : Type} (m : List (Nat × α)) (k : Nat) : Option α :=
  (m.find? (fun p => p.1 == k)).map (·.2)

/-- `Map.set`: overwrite the binding if the key is present, append it
otherwise. -/
def setN (m : List (Nat × Nat)) (k v : Nat) : List (Nat × Nat) :=
  if (lookupN m k).isSome then
    m.map (fun p => if p.1 == k then (k, v) else p)
  else m ++ [(k, v)]

/-- Setting the `INITIALIZED` own property on a class: idempotent insertion
into the set of closed type tags. -/
def addClosed (l : List Nat) (t : Nat) : List Nat :=
  if l.contains t then l else t :: l

/-- Placeholder object for dereferencing an invalid heap reference (never
reached on states produced by the protocol). -/
def defaultMember : EnumValue :=
  { ctorType := 0, ctorName := "", description := "", ordinal := 0,
    propName := none, frozen := false }

/-- Dereference an `EnumValue` heap reference. -/
def memberAt (s : GState) (r : Nat) : EnumValue :=
  (s.heap[r]?).getD defaultMember

/-- The counter read of the `EnumValue` constructor:
`let size = EnumValue.sizes.get(this.constructor); if (!size) { size = 0; }`
(`!size` treats both a missing entry and a stored `0` as `0`). -/
def getSizeJs (sizes : List (Nat × Nat)) (t : Nat) : Nat :=
  match lookupN sizes t with
  | none => 0
  | some n => if n == 0 then 0 else n

/-- JavaScript template-literal rendering of a possibly-undefined string. -/
def toStringJs : Option String → String
  | some s => s
  | none => "undefined"

/-- The `EnumValue` constructor of `ts-enums.ts`:
1. `if (Enum.isInitialized(this)) throw ...` — the post-closure lock, checked
   at construction entry before any other work (the state is returned
   unchanged on the throw);
2. read the per-class counter (`!size` treats both a missing entry and a
   stored `0` as `0`);
3. allocate the object with `_ordinal = size`, `_propName` unset;
4. store `size + 1` back into the counter map.
Returns the reference of the freshly allocated object. -/
def EnumValue.construct (t : Nat) (tname descr : String) (s : GState) :
    (Except JsErr Nat) × GState :=
  if s.closed.contains t then
    (.error .postClosureInstantiation, s)
  else
    let size : Nat := getSizeJs s.sizes t
    let v : EnumValue :=
      { ctorType := t, ctorName := tname, description := descr,
        ordinal := size, propName := none, frozen := false }
    (.ok s.heap.length,
     { s with heap := s.heap ++ [v], sizes := setN s.sizes t (size + 1) })

/-- The candidate fields of an enumeration instance: own property names, in
declaration order, filtered by the default classifier
`theEnum[propName] instanceof EnumValue`, paired with the referenced
`EnumValue`. -/
def candidatesOf (e : EnumInst) : List (String × Nat) :=
  e.fields.filterMap (fun pv =>
    match pv.2 with
    | .member r => some (pv.1, r)
    | .other => none)

/-- The default `mapEnumValue` of `ts-enums.ts`:
`Object.defineProperty(enumValue, '_propName', {value: propName, ...})`
followed by `Object.freeze(enumValue)`, returning the same object.
`defineProperty` on a frozen object throws a `TypeError`. -/
def mapEnumValue (p : String) (r : Nat) (s : GState) :
    (Except JsErr Nat) × GState :=
  match s.heap[r]? with
  | none => (.error .typeError, s)
  | some m =>
    if m.frozen then (.error .typeError, s)
    else
      (.ok r,
       { s with heap := s.heap.set r { m with propName := some p, frozen := true } })

/-- The `.map(propName => mapEnumValue(theEnum, propName))` pass of
`enumValuesFromObject`, over the candidate fields in declaration order; a
throw inside the callback propagates, keeping the mutations already made. -/
def mapCandidates (cs : List (String × Nat)) (s : GState) :
    (Except JsErr (List Nat)) × GState :=
  match cs with
  | [] => (.ok [], s)
  | c :: rest =>
    match mapEnumValue c.1 c.2 s with
    | (.error e, s') => (.error e, s')
    | (.ok v, s') =>
      match mapCandidates rest s' with
      | (.error e, s'') => (.error e, s'')
      | (.ok vs, s'') => (.ok (v :: vs), s'')

/-- `if (values.length) { values[0].constructor[INITIALIZED] = true; }` —
only the runtime type of the first discovered value is marked closed. -/
def stampClosed (s : GState) (vs : List Nat) : GState :=
  match vs with
  | [] => s
  | v :: _ => { s with closed := addClosed s.closed (memberAt s v).ctorType }

/-- The source `unique` helper:
`values.filter((value, i) => values.indexOf(value) === i)`, rendered as an
index-carrying recursion over the filtered list (`orig` is the whole list the
`indexOf` calls search). -/
def uniqueAux (orig : List String) (i : Nat) : List String → List String
  | [] => []
  | v :: rest =>
    if orig.indexOf v == i then v :: uniqueAux orig (i + 1) rest
    else uniqueAux orig (i + 1) rest

/-- `Enum.unique` of the source, specialised to the description strings it is
applied to. -/
def uniqueJs (xs : List String) : List String :=
  uniqueAux xs 0 xs

/-- `Enum.enumValuesFromObject`: discover candidates, stamp and freeze each
(`mapCandidates`), mark the first value's class closed, then throw if any two
descriptions coincide (the length of the list differs from the length of its
`unique` image).  The error message interpolates `theEnum.name`. -/
def Enum.enumValuesFromObject (e : EnumInst) (s : GState) :
    (Except JsErr (List Nat)) × GState :=
  match mapCandidates (candidatesOf e) s with
  | (.error err, s') => (.error err, s')
  | (.ok vs, s') =>
    let s'' := stampClosed s' vs
    let descrs := vs.map (fun r => (memberAt s'' r).description)
    if vs.length ≠ (uniqueJs descrs).length then
      (.error (.duplicateDescription (toStringJs e.name)), s'')
    else (.ok vs, s'')

/-- `Enum.initEnum` (the protected instance method followed by the private
static one):
1. `this.name = name` — a write to the instance (throws if it is frozen);
2. `if (Enum.enumValues.has(theEnum.name)) throw Duplicate name`;
3. `enumValuesFromObject` (stamping, closing, description check);
4. `Object.freeze(theEnum)`;
5. `Enum.enumValues.set(theEnum.name, enumValues)` — the registry write,
   strictly last; the value array becomes the registry-backing array. -/
def Enum.initEnum (name : String) (e : EnumInst) (s : GState) :
    (Except JsErr EnumInst) × GState :=
  if e.frozen then (.error .frozenMutation, s)
  else
    let e₁ : EnumInst := { e with name := some name }
    if (lookupS s.registry name).isSome then (.error (.duplicateName name), s)
    else
      match Enum.enumValuesFromObject e₁ s with
      | (.error err, s') => (.error err, s')
      | (.ok vs, s') =>
        (.ok { e₁ with frozen := true },
         { s' with arrays := s'.arrays ++ [vs],
                   registry := s'.registry ++ [(name, s'.arrays.length)] })

/-- Contents of the registered backing array for this instance's `name`
(`Enum.enumValues.get(name)`), or `[]` when absent — the member sequence every
`values`/`byPropName`/`byDescription` call reads. -/
def valuesContents (e : EnumInst) (s : GState) : List Nat :=
  match e.name.bind (lookupS s.registry) with
  | some a => s.arrays.getD a []
  | none => []

/-- The `values` getter: `values ? [...values] : []` — allocates a fresh array
object holding a copy of the backing contents and returns its reference. -/
def valuesCall (e : EnumInst) (s : GState) : Nat × GState :=
  (s.arrays.length, { s with arrays := s.arrays ++ [valuesContents e s] })

/-- An element write `arr[i] = v` on a (non-frozen) array object. -/
def arrWrite (s : GState) (a i v : Nat) : GState :=
  { s with arrays := s.arrays.set a ((s.arrays.getD a []).set i v) }

/-- `byPropName`: `this.values.find(x => x.propName === propName)` (an unset
`_propName` reads as `undefined`, which is `===`-distinct from any string). -/
def Enum.byPropName (e : EnumInst) (s : GState) (p : String) : Option Nat :=
  (valuesContents e s).find? (fun r => (memberAt s r).propName == some p)

/-- `byDescription`: `this.values.find(x => x.description === description)`. -/
def Enum.byDescription (e : EnumInst) (s : GState) (d : String) : Option Nat :=
  (valuesContents e s).find? (fun r => (memberAt s r).description == d)

/-- `EnumValue.prototype.toString`:
`` `${this.constructor.name}.${this.propName}` `` (an unset propName renders
as `"undefined"`). -/
def memberToString (s : GState) (r : Nat) : String :=
  (memberAt s r).ctorName ++ "." ++ toStringJs (memberAt s r).propName

/-- `Enum.prototype.toString`: returns `this.name`. -/
def enumToString (e : EnumInst) : String :=
  toStringJs e.name

/-- A property assignment `theEnum[p] = v` on an enumeration instance: throws
a strict-mode `TypeError` if the instance is frozen (covering both
overwriting an existing field and adding a new one), otherwise updates or
appends the field.  The instance is returned unchanged on the throw. -/
def EnumInst.setField (e : EnumInst) (p : String) (v : FieldVal) :
    (Except JsErr Unit) × EnumInst :=
  if e.frozen then (.error .frozenMutation, e)
  else
    (.ok (),
     { e with fields :=
        if (lookupS e.fields p).isSome then
          e.fields.map (fun q => if q.1 == p then (p, v) else q)
        else e.fields ++ [(p, v)] })

/-- A field selector on an `EnumValue` object together with the value an
assignment would store. -/
inductive MField where
  | descr (v : String)
  | ordn (v : Nat)
  | pname (v : String)
deriving DecidableEq

/-- A property assignment on an `EnumValue` object (`_description`,
`_ordinal` or `_propName`): throws a strict-mode `TypeError` when the object
is frozen, leaving the state unchanged; otherwise stores the value. -/
def memberWrite (s : GState) (r : Nat) (f : MField) :
    (Except JsErr Unit) × GState :=
  match s.heap[r]? with
  | none => (.error .typeError, s)
  | some m =>
    if m.frozen then (.error .frozenMutation, s)
    else
      let m' :=
        match f with
        | .descr v => { m with description := v }
        | .ordn v => { m with ordinal := v }
        | .pname v => { m with propName := some v }
      (.ok (), { s with heap := s.heap.set r m' })

/-- Run a list of `new ConcreteEnumValue(description)` field initialisers in
declaration order, as the field-initialisation phase of a concrete `Enum`
subclass constructor does; a throw in any one propagates. -/
def constructAll (t : Nat) (tn : String) (descrs : List String) (s : GState) :
    (Except JsErr (List Nat)) × GState :=
  match descrs with
  | [] => (.ok [], s)
  | d :: rest =>
    match EnumValue.construct t tn d s with
    | (.error e, s') => (.error e, s')
    | (.ok r, s') =>
      match constructAll t tn rest s' with
      | (.error e, s'') => (.error e, s'')
      | (.ok rs, s'') => (.ok (r :: rs), s'')

/-- `new ConcreteEnumType()` for a concrete `Enum` subclass whose declared
fields are `defs` (field name, member description) over one concrete
`EnumValue` subtype `t`, and whose constructor body calls
`this.initEnum(name)`: run the field initialisers in order, then close. -/
def newEnumInstance (t : Nat) (tn : String) (defs : List (String × String))
    (name : String) (s : GState) : (Except JsErr EnumInst) × GState :=
  match constructAll t tn (defs.map Prod.snd) s with
  | (.error e, s') => (.error e, s')
  | (.ok rs, s') =>
    let e : EnumInst :=
      { name := none, fields := (defs.map Prod.fst).zip (rs.map FieldVal.member),
        frozen := false }
    Enum.initEnum name e s'

/-- The empty start state (process start: no objects, no counters, no closed
classes, empty registry). -/
def gs0 : GState :=
  { heap := [], sizes := [], closed := [], registry := [], arrays := [] }

/-!
The value-based variant, `src/immutable-enums.ts`.  `EnumValue(defaults,
name?)` is a factory returning a fresh `Record`-backed class with its own
closure-captured `size` counter; members are immutable records, so they are
plain Lean values here (no object heap is needed), and closure "mutation"
produces new records via `merge` that the enumeration rebinds into its
fields.
-/

/-- One member record of the value-based variant: `description`, `ordinal`,
`propName` (undefined until merged in at closure), plus the identity
(`ctorType`) and `name` of the concrete factory-made class. -/
structure ImmValue where
  ctorType : Nat
  ctorName : String
  description : String
  ordinal : Nat
  propName : Option String
deriving DecidableEq

/-- A field of a value-based enumeration instance: a member record (whose
`isEnumValue` default is truthy) or some other value (for which
`theEnum[propName]['isEnumValue']` is falsy). -/
inductive ImmField where
  | member (v : ImmValue)
  | other
deriving DecidableEq

/-- A concrete value-based `Enum` subclass instance. -/
structure ImmEnum where
  name : Option String
  fields : List (String × ImmField)
  frozen : Bool
deriving DecidableEq

/-- Process-wide state of the value-based variant: the per-class
closure-captured `size` counters (keyed by class tag), the classes carrying
the `INITIALIZED` own property, and the registry `Map` (records are values,
so the registry stores the record list directly). -/
structure ImmState where
  sizes : List (Nat × Nat)
  closed : List Nat
  registry : List (String × List ImmValue)
deriving DecidableEq

/-- The constructor of a factory-made `EnumValue` class of
`immutable-enums.ts`: `super({...values, description, ordinal: size, ...})`
builds the record first (with `ordinal` read from the closure-captured
counter and `propName` left at its `undefined` default), then the
`INITIALIZED` own-property check throws — leaving the counter unchanged,
since `size++` runs only after the check. -/
def ImmValue.construct (t : Nat) (tname descr : String) (s : ImmState) :
    (Except JsErr ImmValue) × ImmState :=
  let size := (lookupN s.sizes t).getD 0
  let v : ImmValue :=
    { ctorType := t, ctorName := tname, description := descr,
      ordinal := size, propName := none }
  if s.closed.contains t then (.error .postClosureInstantiation, s)
  else (.ok v, { s with sizes := setN s.sizes t (size + 1) })

/-- Candidate fields of a value-based enumeration: own properties whose value
has a truthy `isEnumValue`, in declaration order. -/
def immCandidatesOf (e : ImmEnum) : List (String × ImmValue) :=
  e.fields.filterMap (fun pv =>
    match pv.2 with
    | .member v => some (pv.1, v)
    | .other => none)

/-- `theEnum[propName].merge({propName})` — a new record equal to the old one
except for the merged-in `propName`. -/
def ImmValue.mergeProp (v : ImmValue) (p : String) : ImmValue :=
  { v with propName := some p }

/-- The rebinding `theEnum[propName] = enumValue` applied to every candidate
field (non-candidates untouched). -/
def immMergeField : (String × ImmField) → (String × ImmField)
  | (p, .member v) => (p, .member (v.mergeProp p))
  | pv => pv

/-- The stamp `if (values.length) { values[0].constructor[INITIALIZED] = true; }`
of the value-based variant: only the class of the first merged record is
closed. -/
def immStampClosed (s : ImmState) (vs : List ImmValue) : ImmState :=
  match vs with
  | [] => s
  | v :: _ => { s with closed := addClosed s.closed v.ctorType }

/-- `Enum.enumValuesFromObject` of `immutable-enums.ts`: merge the `propName`
into each candidate (rebinding the field to the new record), mark the first
value's class closed, then throw if two descriptions coincide.  Returns the
value list, the rebound instance and the state (the rebinding and the stamp
survive a throw). -/
def immEnumValuesFromObject (e : ImmEnum) (s : ImmState) :
    (Except JsErr (List ImmValue)) × ImmEnum × ImmState :=
  let vs := (immCandidatesOf e).map (fun pv => pv.2.mergeProp pv.1)
  let e' : ImmEnum := { e with fields := e.fields.map immMergeField }
  let s' : ImmState := immStampClosed s vs
  let descrs := vs.map (·.description)
  if vs.length ≠ (uniqueJs descrs).length then
    (.error (.duplicateDescription (toStringJs e.name)), e', s')
  else (.ok vs, e', s')

/-- `Enum.initEnum` of `immutable-enums.ts`: assign `this.name`, check the
registry for the name, extract/rebind the values, freeze the instance, then
write the registry entry strictly last. -/
def immInitEnum (name : String) (e : ImmEnum) (s : ImmState) :
    (Except JsErr ImmEnum) × ImmState :=
  if e.frozen then (.error .frozenMutation, s)
  else
    let e₁ : ImmEnum := { e with name := some name }
    if (lookupS s.registry name).isSome then (.error (.duplicateName name), s)
    else
      match immEnumValuesFromObject e₁ s with
      | (.error err, _, s') => (.error err, s')
      | (.ok vs, e₂, s') =>
        (.ok { e₂ with frozen := true },
         { s' with registry := s'.registry ++ [(name, vs)] })

/-- Registered member sequence of a value-based enumeration (records are
values, so the spread copy of the getter is contents-identical to this). -/
def immValuesContents (e : ImmEnum) (s : ImmState) : List ImmValue :=
  match e.name.bind (lookupS s.registry) with
  | some vs => vs
  | none => []

/-- `byPropName` of the value-based variant. -/
def immByPropName (e : ImmEnum) (s : ImmState) (p : String) : Option ImmValue :=
  (immValuesContents e s).find? (fun v => v.propName == some p)

/-!
Concrete scenario reused by the witnesses: the `Color` enumeration of the
repository's tests (`RED`, `GREEN`, `BLUE`, member class tag `0` named
`Color`), built from the empty start state.
-/

/-- Construct the three `Color` members from the empty state. -/
def demoRes : (Except JsErr (List Nat)) × GState :=
  constructAll 0 "Color" ["RED name", "GREEN name", "BLUE name"] gs0

/-- The `ColorEnumType` instance before closure: fields `RED`, `GREEN`,
`BLUE` bound to the three constructed members (heap references 0, 1, 2). -/
def demoEnum : EnumInst :=
  { name := none,
    fields := [("RED", .member 0), ("GREEN", .member 1), ("BLUE", .member 2)],
    frozen := false }

/-- Run the closure on the demo enumeration. -/
def demoInit : (Except JsErr EnumInst) × GState :=
  Enum.initEnum "Color" demoEnum demoRes.2

/-- The closed demo enumeration instance. -/
def demoClosedEnum : EnumInst :=
  match demoInit.1 with
  | .ok e' => e'
  | .error _ => { name := none, fields := [], frozen := false }

/-- The state after the demo closure. -/
def demoClosedState : GState := demoInit.2

/-- The sequence of `EnumValue` objects produced by constructing the given
descriptions for one concrete subtype in order, starting at counter value
`k` (specification device for `constructAll`). -/
def mkMembers (t : Nat) (tn : String) : Nat → List String → List EnumValue
  | _, [] => []
  | k, d :: ds =>
    { ctorType := t, ctorName := tn, description := d, ordinal := k,
      propName := none, frozen := false } :: mkMembers t tn (k + 1) ds

/-- A failing scenario reused by witnesses: a subtype (tag 5, class name
`Dup`) with two members sharing the description `"x"`. -/
def dupRes : (Except JsErr (List Nat)) × GState :=
  constructAll 5 "Dup" ["x", "x"] gs0

/-- The enumeration instance over the two duplicate-description members. -/
def dupEnum : EnumInst :=
  { name := none, fields := [("A", .member 0), ("B", .member 1)], frozen := false }

/-- Build the value-based members of a subtype in order (the
field-initialisation phase of a value-based enumeration constructor). -/
def immConstructAll (t : Nat) (tn : String) (descrs : List String) (s : ImmState) :
    (Except JsErr (List ImmValue)) × ImmState :=
  match descrs with
  | [] => (.ok [], s)
  | d :: rest =>
    match ImmValue.construct t tn d s with
    | (.error e, s') => (.error e, s')
    | (.ok v, s') =>
      match immConstructAll t tn rest s' with
      | (.error e, s'') => (.error e, s'')
      | (.ok vs, s'') => (.ok (v :: vs), s'')

/-- The value-based demo enumeration instance before closure. -/
def immDemoEnum : ImmEnum :=
  { name := none,
    fields :=
      [("RED", .member { ctorType := 0, ctorName := "Color",
                         description := "RED name", ordinal := 0, propName := none }),
       ("GREEN", .member { ctorType := 0, ctorName := "Color",
                           description := "GREEN name", ordinal := 1, propName := none }),
       ("BLUE", .member { ctorType := 0, ctorName := "Color",
                          description := "BLUE name", ordinal := 2, propName := none })],
    frozen := false }

/-- The empty start state of the value-based variant. -/
def immS0 : ImmState := { sizes := [], closed := [], registry := [] }

/-- The value-based state after the three member constructions. -/
def immDemoPre : ImmState :=
  (immConstructAll 0 "Color" ["RED name", "GREEN name", "BLUE name"] immS0).2

/-- Closure of the value-based demo enumeration. -/
def immDemoInit : (Except JsErr ImmEnum) × ImmState :=
  immInitEnum "Color" immDemoEnum immDemoPre

/-- The closed value-based demo enumeration instance. -/
def immDemoClosedEnum : ImmEnum :=
  match immDemoInit.1 with
  | .ok e => e
  | .error _ => { name := none, fields := [], frozen := false }

/-- The value-based state after the demo closure. -/
def immDemoClosedState : ImmState := immDemoInit.2

/-- The state and value list right after the stamping pass on the
duplicate-description demo (used to exhibit the half-finished closure). -/
def dupStamped : GState := (mapCandidates (candidatesOf dupEnum) dupRes.2).2

/-- The references produced by the stamping pass on the duplicate demo. -/
def dupVs : List Nat :=
  match (mapCandidates (candidatesOf dupEnum) dupRes.2).1 with
  | .ok vs => vs
  | .error _ => []

/-- Blueprint of the demo `Color` enumeration subtype: field names with
member descriptions, used with `newEnumInstance`. -/
def bpDefs : List (String × String) :=
  [("RED", "RED name"), ("GREEN", "GREEN name"), ("BLUE", "BLUE name")]

/-- First construction of the blueprint subtype (runs field initialisers
then `initEnum`). -/
def bpRun : (Except JsErr EnumInst) × GState :=
  newEnumInstance 0 "Color" bpDefs "Color" gs0

/-- The instance produced by the first blueprint construction. -/
def bpEnum : EnumInst :=
  match bpRun.1 with
  | .ok e => e
  | .error _ => { name := none, fields := [], frozen := false }

/-- The state after the first blueprint construction. -/
def bpState : GState := bpRun.2

/-- A mixed-subtype scenario: one member of class tag 1, one of class tag 2,
bound to one enumeration (exercises the first-candidate-only stamp). -/
def mixedS1 : GState := (EnumValue.construct 1 "TypA" "a" gs0).2

/-- State after constructing the second member (class tag 2). -/
def mixedS2 : GState := (EnumValue.construct 2 "TypB" "b" mixedS1).2

/-- The mixed-subtype enumeration instance before closure. -/
def mixedEnum : EnumInst :=
  { name := none, fields := [("A", .member 0), ("B", .member 1)], frozen := false }

/-- Closure of the mixed-subtype enumeration. -/
def mixedInit : (Except JsErr EnumInst) × GState :=
  Enum.initEnum "Mixed" mixedEnum mixedS2

/-- The closed mixed-subtype enumeration instance. -/
def mixedClosedEnum : EnumInst :=
  match mixedInit.1 with
  | .ok e => e
  | .error _ => { name := none, fields := [], frozen := false }

/-- The state after the mixed-subtype closure. -/
def mixedClosedState : GState := mixedInit.2

/-!
Helper lemmas about the map/heap encodings.
-/

theorem contains_iff_memN {l : List Nat} {a : Nat} : l.contains a = true ↔ a ∈ l := by
  simp [List.contains, List.elem_iff]

theorem contains_false_of_not_memN {l : List Nat} {a : Nat} (h : a ∉ l) :
    l.contains a = false := by
  cases hc : l.contains a with
  | false => rfl
  | true => exact absurd (contains_iff_memN.mp hc) h

theorem lookupN_nil {α : Type} (k : Nat) : lookupN ([] : List (Nat × α)) k = none := rfl

theorem lookupN_cons {α : Type} (p : Nat × α) (rest : List (Nat × α)) (k : Nat) :
    lookupN (p :: rest) k = if p.1 == k then some p.2 else lookupN rest k := by
  unfold lookupN
  cases hpk : (p.1 == k) <;> simp [List.find?, hpk]

theorem lookupS_nil {α : Type} (k : String) : lookupS ([] : List (String × α)) k = none := rfl

theorem lookupS_cons {α : Type} (p : String × α) (rest : List (String × α)) (k : String) :
    lookupS (p :: rest) k = if p.1 == k then some p.2 else lookupS rest k := by
  unfold lookupS
  cases hpk : (p.1 == k) <;> simp [List.find?, hpk]

theorem lookupN_append_self (m : List (Nat × Nat)) (k v : Nat)
    (h : lookupN m k = none) : lookupN (m ++ [(k, v)]) k = some v := by
  induction m with
  | nil => simp [lookupN_cons, lookupN_nil]
  | cons p rest ih =>
    rw [lookupN_cons p rest k] at h
    cases hpk : (p.1 == k) with
    | true => simp [hpk] at h
    | false =>
      simp only [hpk, if_false] at h
      simpa [List.cons_append, lookupN_cons, hpk] using ih h

theorem lookupN_map_overwrite (m : List (Nat × Nat)) (k v : Nat)
    (h : (lookupN m k).isSome = true) :
    lookupN (m.map (fun p => if p.1 == k then (k, v) else p)) k = some v := by
  induction m with
  | nil => simp [lookupN_nil] at h
  | cons p rest ih =>
    rw [lookupN_cons p rest k] at h
    cases hpk : (p.1 == k) with
    | true =>
      have hk : p.1 = k := by simpa using hpk
      simp [List.map_cons, lookupN_cons, hk]
    | false =>
      have hne : ¬p.1 = k := by simpa using hpk
      simp only [hpk, if_false] at h
      simpa [List.map_cons, lookupN_cons, hne] using ih h

theorem lookupN_setN_self (m : List (Nat × Nat)) (k v : Nat) :
    lookupN (setN m k v) k = some v := by
  unfold setN
  cases hlk : (lookupN m k).isSome with
  | true => simpa [hlk] using lookupN_map_overwrite m k v hlk
  | false =>
    have hnone : lookupN m k = none := by
      cases h : lookupN m k with
      | none => rfl
      | some w => rw [h] at hlk; simp at hlk
    simpa [hlk] using lookupN_append_self m k v hnone

theorem lookupS_append_self {α : Type} (m : List (String × α)) (k : String) (v : α)
    (h : lookupS m k = none) : lookupS (m ++ [(k, v)]) k = some v := by
  induction m with
  | nil => simp [lookupS_cons, lookupS_nil]
  | cons p rest ih =>
    rw [lookupS_cons p rest k] at h
    cases hpk : (p.1 == k) with
    | true => simp [hpk] at h
    | false =>
      simp only [hpk, if_false] at h
      simpa [List.cons_append, lookupS_cons, hpk] using ih h

theorem getD_append_length {α : Type} (l : List α) (x : α) (l₂ : List α) (d : α) :
    (l ++ x :: l₂).getD l.length d = x := by
  rw [List.getD_eq_getElem?_getD, List.getElem?_append_right (Nat.le_refl _)]
  simp

theorem getD_append_lt {α : Type} (l l₂ : List α) (b : Nat) (d : α) (h : b < l.length) :
    (l ++ l₂).getD b d = l.getD b d := by
  rw [List.getD_eq_getElem?_getD, List.getElem?_append_left h, List.getD_eq_getElem?_getD]

theorem getD_set_ne {α : Type} (l : List α) (a b : Nat) (x d : α) (h : a ≠ b) :
    (l.set a x).getD b d = l.getD b d := by
  rw [List.getD_eq_getElem?_getD, List.getElem?_set_ne h, List.getD_eq_getElem?_getD]

theorem map_getD_range' {α : Type} (l₁ l₂ : List α) (d : α) :
    (List.range' l₁.length l₂.length).map (fun r => (l₁ ++ l₂).getD r d) = l₂ := by
  induction l₂ generalizing l₁ with
  | nil => simp
  | cons x rest ih =>
    simp only [List.length_cons, List.range'_succ, List.map_cons]
    rw [getD_append_length l₁ x rest d]
    congr 1
    have := ih (l₁ ++ [x])
    simp only [List.length_append, List.length_cons, List.length_nil] at this
    calc (List.range' (l₁.length + 1) rest.length).map (fun r => (l₁ ++ x :: rest).getD r d)
        = (List.range' (l₁.length + 1) rest.length).map (fun r => ((l₁ ++ [x]) ++ rest).getD r d) := by
          simp
      _ = rest := this

/-!
The `unique` helper: when its image has full length, the list has no
duplicate entries (so the description-uniqueness check of
`enumValuesFromObject` fires exactly on duplicated descriptions).
-/

theorem uniqueAux_length_le (orig : List String) (i : Nat) (l : List String) :
    (uniqueAux orig i l).length ≤ l.length := by
  induction l generalizing i with
  | nil => simp [uniqueAux]
  | cons v rest ih =>
    unfold uniqueAux
    split
    · simpa using ih (i + 1)
    · exact Nat.le_trans (ih (i + 1)) (Nat.le_succ _)

theorem uniqueAux_full (orig : List String) (i : Nat) (l : List String)
    (h : (uniqueAux orig i l).length = l.length) :
    ∀ k v, l[k]? = some v → orig.indexOf v = i + k := by
  induction l generalizing i with
  | nil => intro k v hk; simp at hk
  | cons w rest ih =>
    unfold uniqueAux at h
    split at h
    · rename_i hidx
      simp only [List.length_cons, Nat.succ_inj] at h
      intro k v hk
      match k with
      | 0 =>
        simp only [List.getElem?_cons_zero, Option.some_inj] at hk
        subst hk
        simpa using hidx
      | k' + 1 =>
        simp only [List.getElem?_cons_succ] at hk
        have := ih (i + 1) h k' v hk
        omega
    · exfalso
      have hle := uniqueAux_length_le orig (i + 1) rest
      simp only [List.length_cons] at h
      omega

theorem nodup_of_uniqueJs_length (xs : List String)
    (h : (uniqueJs xs).length = xs.length) : xs.Nodup := by
  have hall : ∀ k v, xs[k]? = some v → xs.indexOf v = k := by
    intro k v hk
    simpa using uniqueAux_full xs 0 xs h k v hk
  rw [List.nodup_iff_injective_get]
  intro a b hab
  have ha : xs[(a : Nat)]? = some (xs.get a) := by
    simp [List.getElem?_eq_getElem a.isLt, List.get_eq_getElem]
  have hb : xs[(b : Nat)]? = some (xs.get b) := by
    simp [List.getElem?_eq_getElem b.isLt, List.get_eq_getElem]
  have h1 := hall a (xs.get a) ha
  have h2 := hall b (xs.get b) hb
  rw [hab] at h1
  exact Fin.ext (by omega)

theorem uniqueJs_length_ne_of_dup (xs : List String) (h : ¬xs.Nodup) :
    xs.length ≠ (uniqueJs xs).length := by
  intro heq
  exact h (nodup_of_uniqueJs_length xs heq.symm)

/-!
Specification of the member-construction pass (`constructAll`): when the
subtype is still open, every construction succeeds, the fresh objects get
consecutive references and consecutive ordinals starting at the current
counter value, and nothing else in the state changes.
-/

theorem memberAt_eq_getD (s : GState) (r : Nat) :
    memberAt s r = s.heap.getD r defaultMember := by
  rw [memberAt, List.getD_eq_getElem?_getD]

theorem mkMembers_length (t : Nat) (tn : String) (k : Nat) (ds : List String) :
    (mkMembers t tn k ds).length = ds.length := by
  induction ds generalizing k with
  | nil => rfl
  | cons d rest ih => simp [mkMembers, ih]

theorem mkMembers_map_ordinal (t : Nat) (tn : String) (k : Nat) (ds : List String) :
    (mkMembers t tn k ds).map (·.ordinal) = List.range' k ds.length := by
  induction ds generalizing k with
  | nil => rfl
  | cons d rest ih => simp [mkMembers, List.range'_succ, ih]

theorem mkMembers_mem (t : Nat) (tn : String) (k : Nat) (ds : List String)
    (v : EnumValue) (hv : v ∈ mkMembers t tn k ds) :
    v.ctorType = t ∧ v.ctorName = tn ∧ v.propName = none ∧ v.frozen = false := by
  induction ds generalizing k with
  | nil => simp [mkMembers] at hv
  | cons d rest ih =>
    simp only [mkMembers, List.mem_cons] at hv
    cases hv with
    | inl h => subst h; exact ⟨rfl, rfl, rfl, rfl⟩
    | inr h => exact ih (k + 1) h

theorem constructAll_ok (t : Nat) (tn : String) (descrs : List String) (s : GState)
    (hopen : t ∉ s.closed) :
    ∃ sz, constructAll t tn descrs s =
      (.ok (List.range' s.heap.length descrs.length),
       { heap := s.heap ++ mkMembers t tn (getSizeJs s.sizes t) descrs,
         sizes := sz, closed := s.closed, registry := s.registry,
         arrays := s.arrays }) := by
  induction descrs generalizing s with
  | nil =>
    refine ⟨s.sizes, ?_⟩
    simp [constructAll, mkMembers]
  | cons d rest ih =>
    have hcont : s.closed.contains t = false := contains_false_of_not_memN hopen
    have hstep : EnumValue.construct t tn d s =
        (.ok s.heap.length,
         { s with heap := s.heap ++ [{ ctorType := t, ctorName := tn, description := d,
                                       ordinal := getSizeJs s.sizes t, propName := none,
                                       frozen := false }],
                  sizes := setN s.sizes t (getSizeJs s.sizes t + 1) }) := by
      unfold EnumValue.construct
      rw [hcont]
      rfl
    set s₁ : GState :=
      { s with heap := s.heap ++ [{ ctorType := t, ctorName := tn, description := d,
                                    ordinal := getSizeJs s.sizes t, propName := none,
                                    frozen := false }],
               sizes := setN s.sizes t (getSizeJs s.sizes t + 1) } with hs₁
    have hopen₁ : t ∉ s₁.closed := hopen
    obtain ⟨sz, hrest⟩ := ih s₁ hopen₁
    refine ⟨sz, ?_⟩
    have hsize₁ : getSizeJs s₁.sizes t = getSizeJs s.sizes t + 1 := by
      show getSizeJs (setN s.sizes t (getSizeJs s.sizes t + 1)) t = _
      unfold getSizeJs
      rw [lookupN_setN_self]
      simp
    have hlen₁ : s₁.heap.length = s.heap.length + 1 := by
      simp [hs₁]
    unfold constructAll
    rw [hstep]
    simp only []
    rw [hrest]
    simp only [hsize₁, hlen₁]
    have hheap : s₁.heap ++ mkMembers t tn (getSizeJs s.sizes t + 1) rest =
        s.heap ++ mkMembers t tn (getSizeJs s.sizes t) (d :: rest) := by
      simp [hs₁, mkMembers, List.append_assoc]
    have hrange : List.range' s.heap.length (d :: rest).length =
        s.heap.length :: List.range' (s.heap.length + 1) rest.length := by
      simp [List.range'_succ]
    rw [hrange]
    simp [hs₁, hheap, mkMembers, List.append_assoc]

/-!
Specification of the stamping pass (`mapCandidates`): on success every
candidate gets its field name stamped into `_propName` and is frozen; the
counters, the closed set, the registry and the array heap are untouched.
-/

theorem mapEnumValue_ok (p : String) (r : Nat) (s : GState) (v : Nat) (s' : GState)
    (h : mapEnumValue p r s = (.ok v, s')) :
    v = r ∧ ∃ m, s.heap[r]? = some m ∧ m.frozen = false ∧
      s' = { s with heap := s.heap.set r { m with propName := some p, frozen := true } } := by
  unfold mapEnumValue at h
  split at h
  · simp at h
  · rename_i m hm
    split at h
    · simp at h
    · rename_i hfr
      rw [Prod.mk.injEq] at h
      obtain ⟨h1, h2⟩ := h
      refine ⟨by simpa using h1.symm, m, hm, by simpa using hfr, h2.symm⟩

theorem mapCandidates_err_of_frozen (cs : List (String × Nat)) (s : GState)
    (q : String) (r : Nat) (hmem : (q, r) ∈ cs)
    (hfr : ∀ m, s.heap[r]? = some m → m.frozen = true) :
    ∃ e s', mapCandidates cs s = (.error e, s') := by
  induction cs generalizing s with
  | nil => simp at hmem
  | cons c rest ih =>
    rw [List.mem_cons] at hmem
    match hme : mapEnumValue c.1 c.2 s with
    | (.error e, s₁) =>
      refine ⟨e, s₁, ?_⟩
      unfold mapCandidates
      rw [hme]
    | (.ok v, s₁) =>
      obtain ⟨-, m, hm, hmfr, hs₁⟩ := mapEnumValue_ok c.1 c.2 s v s₁ hme
      have hcr : (q, r) ∈ rest := by
        cases hmem with
        | inl hh =>
          exfalso
          have hc2 : c.2 = r := by rw [← hh]
          rw [hc2] at hm
          exact absurd (hfr m hm) (by simp [hmfr])
        | inr hh => exact hh
      have hlt : c.2 < s.heap.length := (List.getElem?_eq_some_iff.mp hm).1
      have hfr₁ : ∀ m', s₁.heap[r]? = some m' → m'.frozen = true := by
        intro m' hm'
        by_cases hrc : c.2 = r
        · subst hrc
          rw [hs₁] at hm'
          simp only [] at hm'
          rw [List.getElem?_set_self hlt] at hm'
          have hmm : m' = { m with propName := some c.1, frozen := true } := by
            simpa using hm'.symm
          simp [hmm]
        · rw [hs₁] at hm'
          simp only [] at hm'
          rw [List.getElem?_set_ne hrc] at hm'
          exact hfr m' hm'
      obtain ⟨e, s', hrest⟩ := ih s₁ hcr hfr₁
      refine ⟨e, s', ?_⟩
      simp [mapCandidates, hme, hrest]

theorem mapCandidates_ok_spec (cs : List (String × Nat)) (s : GState)
    (vs : List Nat) (s' : GState) (h : mapCandidates cs s = (.ok vs, s')) :
    vs = cs.map Prod.snd ∧
    s'.sizes = s.sizes ∧ s'.closed = s.closed ∧ s'.registry = s.registry ∧
    s'.arrays = s.arrays ∧ s'.heap.length = s.heap.length ∧
    (∀ r, r ∉ cs.map Prod.snd → s'.heap[r]? = s.heap[r]?) ∧
    (∀ p r, (p, r) ∈ cs → ∃ m, s.heap[r]? = some m ∧ m.frozen = false ∧
        s'.heap[r]? = some { m with propName := some p, frozen := true }) := by
  induction cs generalizing s vs with
  | nil =>
    rw [show mapCandidates [] s = (.ok [], s) from rfl, Prod.mk.injEq] at h
    obtain ⟨h1, h2⟩ := h
    subst h2
    refine ⟨by simpa using h1.symm, rfl, rfl, rfl, rfl, rfl, fun r _ => rfl, ?_⟩
    intro p r hpr
    simp at hpr
  | cons c rest ih =>
    match hme : mapEnumValue c.1 c.2 s with
    | (.error e, s₁) =>
      rw [show mapCandidates (c :: rest) s =
            (match mapEnumValue c.1 c.2 s with
             | (.error e, s') => (.error e, s')
             | (.ok v, s') =>
               match mapCandidates rest s' with
               | (.error e, s'') => (.error e, s'')
               | (.ok vs, s'') => (.ok (v :: vs), s'')) from rfl, hme] at h
      simp at h
    | (.ok v, s₁) =>
      obtain ⟨hvr, m, hm, hmfr, hs₁⟩ := mapEnumValue_ok c.1 c.2 s v s₁ hme
      rw [show mapCandidates (c :: rest) s =
            (match mapEnumValue c.1 c.2 s with
             | (.error e, s') => (.error e, s')
             | (.ok v, s') =>
               match mapCandidates rest s' with
               | (.error e, s'') => (.error e, s'')
               | (.ok vs, s'') => (.ok (v :: vs), s'')) from rfl, hme] at h
      have h0 : (match mapCandidates rest s₁ with
                 | (.error e, s'') => ((Except.error e : Except JsErr (List Nat)), s'')
                 | (.ok vs', s'') => (.ok (v :: vs'), s'')) = (Except.ok vs, s') := h
      match hmc : mapCandidates rest s₁ with
      | (.error e, s₂) =>
        rw [hmc] at h0
        have h1 : ((Except.error e : Except JsErr (List Nat)), s₂) =
            (Except.ok vs, s') := h0
        simp at h1
      | (.ok vs₁, s₂) =>
        rw [hmc] at h0
        have hsplit : ((Except.ok (v :: vs₁) : Except JsErr (List Nat)), s₂) =
            (Except.ok vs, s') := h0
        rw [Prod.mk.injEq] at hsplit
        obtain ⟨h1, h2⟩ := hsplit
        have hvs : vs = v :: vs₁ := by simpa using h1.symm
        subst h2
        obtain ⟨ihv, ihsz, ihcl, ihreg, iharr, ihlen, ihold, ihstamp⟩ :=
          ih s₁ vs₁ hmc
        have hlt : c.2 < s.heap.length := (List.getElem?_eq_some_iff.mp hm).1
        have hs₁heap : s₁.heap = s.heap.set c.2
            { m with propName := some c.1, frozen := true } := by rw [hs₁]
        have hs₁rest : s₁.sizes = s.sizes ∧ s₁.closed = s.closed ∧
            s₁.registry = s.registry ∧ s₁.arrays = s.arrays := by
          rw [hs₁]; exact ⟨rfl, rfl, rfl, rfl⟩
        have hc2rest : c.2 ∉ rest.map Prod.snd := by
          intro hmemr
        -- a second stamping of the same object would hit a frozen object
          obtain ⟨pr, hpr, hpr2⟩ := List.mem_map.mp hmemr
          have hfr₁ : ∀ m', s₁.heap[c.2]? = some m' → m'.frozen = true := by
            intro m' hm'
            rw [hs₁heap, List.getElem?_set_self hlt] at hm'
            have : m' = { m with propName := some c.1, frozen := true } := by
              simpa using hm'.symm
            simp [this]
          obtain ⟨e', s'', hbad⟩ :=
            mapCandidates_err_of_frozen rest s₁ pr.1 c.2
              (by rw [show (pr.1, c.2) = pr from by rw [← hpr2]]; exact hpr) hfr₁
          rw [hmc] at hbad
          simp at hbad
        refine ⟨by rw [hvs, hvr, List.map_cons, ihv], ?_, ?_, ?_, ?_, ?_, ?_, ?_⟩
        · rw [ihsz, hs₁rest.1]
        · rw [ihcl, hs₁rest.2.1]
        · rw [ihreg, hs₁rest.2.2.1]
        · rw [iharr, hs₁rest.2.2.2]
        · rw [ihlen, hs₁heap]; simp
        · intro r hr
          rw [List.map_cons, List.mem_cons] at hr
          push_neg at hr
          rw [ihold r hr.2, hs₁heap, List.getElem?_set_ne (fun hh => hr.1 hh.symm)]
        · intro p r hpr
          rw [List.mem_cons] at hpr
          cases hpr with
          | inl hh =>
            have hp : p = c.1 := congrArg Prod.fst hh
            have hr : r = c.2 := congrArg Prod.snd hh
            subst hp; subst hr
            refine ⟨m, hm, hmfr, ?_⟩
            rw [ihold c.2 hc2rest, hs₁heap, List.getElem?_set_self hlt]
          | inr hh =>
            obtain ⟨m', hm', hmfr', hst'⟩ := ihstamp p r hh
            have hrne : c.2 ≠ r := by
              intro hcr
              rw [hs₁heap, hcr, List.getElem?_set_self (hcr ▸ hlt)] at hm'
              have : m' = { m with propName := some c.1, frozen := true } := by
                simpa using hm'.symm
              rw [this] at hmfr'
              simp at hmfr'
            refine ⟨m', ?_, hmfr', hst'⟩
            rw [hs₁heap, List.getElem?_set_ne hrne] at hm'
            exact hm'

theorem mapEnumValue_frame (p : String) (r : Nat) (s : GState) :
    (mapEnumValue p r s).2.sizes = s.sizes ∧
    (mapEnumValue p r s).2.closed = s.closed ∧
    (mapEnumValue p r s).2.registry = s.registry ∧
    (mapEnumValue p r s).2.arrays = s.arrays := by
  unfold mapEnumValue
  split
  · exact ⟨rfl, rfl, rfl, rfl⟩
  · split
    · exact ⟨rfl, rfl, rfl, rfl⟩
    · exact ⟨rfl, rfl, rfl, rfl⟩

theorem mapCandidates_frame (cs : List (String × Nat)) (s : GState) :
    (mapCandidates cs s).2.sizes = s.sizes ∧
    (mapCandidates cs s).2.closed = s.closed ∧
    (mapCandidates cs s).2.registry = s.registry ∧
    (mapCandidates cs s).2.arrays = s.arrays := by
  induction cs generalizing s with
  | nil => exact ⟨rfl, rfl, rfl, rfl⟩
  | cons c rest ih =>
    match hme : mapEnumValue c.1 c.2 s with
    | (.error e, s₁) =>
      have hfr := mapEnumValue_frame c.1 c.2 s
      rw [hme] at hfr
      have : mapCandidates (c :: rest) s = (.error e, s₁) := by
        unfold mapCandidates
        rw [hme]
      rw [this]
      exact hfr
    | (.ok v, s₁) =>
      have hfr := mapEnumValue_frame c.1 c.2 s
      rw [hme] at hfr
      have hstep : mapCandidates (c :: rest) s =
          (match mapCandidates rest s₁ with
           | (.error e, s'') => ((Except.error e : Except JsErr (List Nat)), s'')
           | (.ok vs, s'') => (.ok (v :: vs), s'')) := by
        rw [show mapCandidates (c :: rest) s =
              (match mapEnumValue c.1 c.2 s with
               | (.error e, s') => (.error e, s')
               | (.ok v, s') =>
                 match mapCandidates rest s' with
                 | (.error e, s'') => (.error e, s'')
                 | (.ok vs, s'') => (.ok (v :: vs), s'')) from rfl, hme]
      have hstate : (mapCandidates (c :: rest) s).2 = (mapCandidates rest s₁).2 := by
        rw [hstep]
        cases hmc : mapCandidates rest s₁ with
        | mk res s₂ => cases res <;> rfl
      rw [hstate]
      have hih := ih s₁
      refine ⟨?_, ?_, ?_, ?_⟩
      · rw [hih.1, hfr.1]
      · rw [hih.2.1, hfr.2.1]
      · rw [hih.2.2.1, hfr.2.2.1]
      · rw [hih.2.2.2, hfr.2.2.2]

theorem stampClosed_frame (s : GState) (vs : List Nat) :
    (stampClosed s vs).heap = s.heap ∧ (stampClosed s vs).sizes = s.sizes ∧
    (stampClosed s vs).registry = s.registry ∧ (stampClosed s vs).arrays = s.arrays := by
  unfold stampClosed
  match vs with
  | [] => exact ⟨rfl, rfl, rfl, rfl⟩
  | v :: _ => exact ⟨rfl, rfl, rfl, rfl⟩

theorem mem_addClosed (l : List Nat) (t a : Nat) :
    a ∈ addClosed l t ↔ a = t ∨ a ∈ l := by
  unfold addClosed
  split
  · rename_i hc
    constructor
    · exact fun h => Or.inr h
    · intro h
      cases h with
      | inl hh => rw [hh]; exact contains_iff_memN.mp hc
      | inr hh => exact hh
  · simp [List.mem_cons]

theorem candidatesOf_set_name (e : EnumInst) (x : Option String) :
    candidatesOf { e with name := x } = candidatesOf e := rfl

theorem enumValuesFromObject_ok_inv (e : EnumInst) (s : GState)
    (vs : List Nat) (s' : GState)
    (h : Enum.enumValuesFromObject e s = (.ok vs, s')) :
    ∃ s₁, mapCandidates (candidatesOf e) s = (.ok vs, s₁) ∧
      s' = stampClosed s₁ vs ∧
      vs.length = (uniqueJs (vs.map (fun r => (memberAt s' r).description))).length := by
  match hmc : mapCandidates (candidatesOf e) s with
  | (.error err₁, s₁) =>
    have hh : Enum.enumValuesFromObject e s = (.error err₁, s₁) := by
      unfold Enum.enumValuesFromObject
      rw [hmc]
    rw [hh] at h
    simp at h
  | (.ok vs₁, s₁) =>
    have hh : Enum.enumValuesFromObject e s =
        (if vs₁.length ≠ (uniqueJs (vs₁.map
              (fun r => (memberAt (stampClosed s₁ vs₁) r).description))).length
         then ((.error (.duplicateDescription (toStringJs e.name)) :
                  Except JsErr (List Nat)), stampClosed s₁ vs₁)
         else (.ok vs₁, stampClosed s₁ vs₁)) := by
      unfold Enum.enumValuesFromObject
      rw [hmc]
    rw [hh] at h
    split at h
    · simp at h
    · rename_i hlen
      rw [Prod.mk.injEq] at h
      obtain ⟨h1, h2⟩ := h
      have hv : vs₁ = vs := by simpa using h1
      subst hv
      refine ⟨s₁, rfl, h2.symm, ?_⟩
      rw [← h2]
      exact Decidable.not_not.mp hlen

theorem enumValuesFromObject_err_inv (e : EnumInst) (s : GState)
    (err : JsErr) (s' : GState)
    (h : Enum.enumValuesFromObject e s = (.error err, s')) :
    (∃ s₁, mapCandidates (candidatesOf e) s = (.error err, s₁) ∧ s' = s₁) ∨
    (∃ vs s₁, mapCandidates (candidatesOf e) s = (.ok vs, s₁) ∧
      s' = stampClosed s₁ vs ∧ err = .duplicateDescription (toStringJs e.name) ∧
      vs.length ≠ (uniqueJs (vs.map (fun r => (memberAt s' r).description))).length) := by
  match hmc : mapCandidates (candidatesOf e) s with
  | (.error err₁, s₁) =>
    have hh : Enum.enumValuesFromObject e s = (.error err₁, s₁) := by
      unfold Enum.enumValuesFromObject
      rw [hmc]
    rw [hh] at h
    rw [Prod.mk.injEq] at h
    obtain ⟨h1, h2⟩ := h
    refine Or.inl ⟨s₁, ?_, h2.symm⟩
    rw [show err₁ = err from by simpa using h1]
  | (.ok vs₁, s₁) =>
    have hh : Enum.enumValuesFromObject e s =
        (if vs₁.length ≠ (uniqueJs (vs₁.map
              (fun r => (memberAt (stampClosed s₁ vs₁) r).description))).length
         then ((.error (.duplicateDescription (toStringJs e.name)) :
                  Except JsErr (List Nat)), stampClosed s₁ vs₁)
         else (.ok vs₁, stampClosed s₁ vs₁)) := by
      unfold Enum.enumValuesFromObject
      rw [hmc]
    rw [hh] at h
    split at h
    · rename_i hlen
      rw [Prod.mk.injEq] at h
      obtain ⟨h1, h2⟩ := h
      refine Or.inr ⟨vs₁, s₁, rfl, h2.symm, by simpa using h1.symm, ?_⟩
      rw [← h2]
      exact hlen
    · simp at h

theorem mapCandidates_preserve (cs : List (String × Nat)) (s : GState)
    (vs : List Nat) (s' : GState) (h : mapCandidates cs s = (.ok vs, s'))
    (r : Nat) :
    (memberAt s' r).ctorType = (memberAt s r).ctorType ∧
    (memberAt s' r).ctorName = (memberAt s r).ctorName ∧
    (memberAt s' r).description = (memberAt s r).description ∧
    (memberAt s' r).ordinal = (memberAt s r).ordinal := by
  obtain ⟨-, -, -, -, -, -, hold, hstamp⟩ := mapCandidates_ok_spec cs s vs s' h
  by_cases hr : r ∈ cs.map Prod.snd
  · obtain ⟨pr, hpr, hpr2⟩ := List.mem_map.mp hr
    obtain ⟨m, hm, -, hst⟩ := hstamp pr.1 r (by
      rw [show (pr.1, r) = pr from by rw [← hpr2]]
      exact hpr)
    unfold memberAt
    rw [hm, hst]
    exact ⟨rfl, rfl, rfl, rfl⟩
  · unfold memberAt
    rw [hold r hr]
    exact ⟨rfl, rfl, rfl, rfl⟩

theorem initEnum_ok_inv (name : String) (e : EnumInst) (s : GState)
    (e' : EnumInst) (s' : GState)
    (h : Enum.initEnum name e s = (.ok e', s')) :
    e.frozen = false ∧ lookupS s.registry name = none ∧
    e' = { e with name := some name, frozen := true } ∧
    ∃ s₁, mapCandidates (candidatesOf e) s =
        (.ok ((candidatesOf e).map Prod.snd), s₁) ∧
      s' = { stampClosed s₁ ((candidatesOf e).map Prod.snd) with
             arrays := s₁.arrays ++ [(candidatesOf e).map Prod.snd],
             registry := s₁.registry ++ [(name, s₁.arrays.length)] } := by
  unfold Enum.initEnum at h
  split at h
  · simp at h
  · rename_i hfro
    split at h
    · simp at h
    · rename_i hreg
      have h0 : (match Enum.enumValuesFromObject { e with name := some name } s with
                 | (.error err, s₂) => ((Except.error err : Except JsErr EnumInst), s₂)
                 | (.ok vs, s₂) =>
                   (Except.ok { e with name := some name, frozen := true },
                    { s₂ with arrays := s₂.arrays ++ [vs],
                              registry := s₂.registry ++ [(name, s₂.arrays.length)] })) =
          (Except.ok e', s') := h
      match hev : Enum.enumValuesFromObject { e with name := some name } s with
      | (.error err, s₁) =>
        rw [hev] at h0
        have hbad : ((Except.error err : Except JsErr EnumInst), s₁) =
            (Except.ok e', s') := h0
        simp at hbad
      | (.ok vs, s₁) =>
        rw [hev] at h0
        have hsplit : ((Except.ok { e with name := some name, frozen := true } :
              Except JsErr EnumInst),
            { s₁ with arrays := s₁.arrays ++ [vs],
                      registry := s₁.registry ++ [(name, s₁.arrays.length)] }) =
            (Except.ok e', s') := h0
        rw [Prod.mk.injEq] at hsplit
        obtain ⟨h1, h2⟩ := hsplit
        obtain ⟨s₂, hmc, hstamp, -⟩ :=
          enumValuesFromObject_ok_inv { e with name := some name } s vs s₁ hev
        rw [candidatesOf_set_name] at hmc
        obtain ⟨hvs, -⟩ := mapCandidates_ok_spec (candidatesOf e) s vs s₂ hmc
        subst hvs
        refine ⟨by simpa using hfro, ?_, by simpa using h1.symm, s₂, hmc, ?_⟩
        · cases hlk : lookupS s.registry name with
          | none => rfl
          | some a => rw [hlk] at hreg; simp at hreg
        · rw [← h2, hstamp]
          cases hcs : (candidatesOf e).map Prod.snd with
          | nil => rfl
          | cons v vr => rfl

theorem memberAt_stampClosed (s : GState) (vs : List Nat) (r : Nat) :
    memberAt (stampClosed s vs) r = memberAt s r := by
  unfold memberAt
  rw [(stampClosed_frame s vs).1]

theorem valuesContents_after_init (name : String) (e : EnumInst) (s : GState)
    (e' : EnumInst) (s' : GState)
    (h : Enum.initEnum name e s = (.ok e', s')) :
    valuesContents e' s' = (candidatesOf e).map Prod.snd := by
  obtain ⟨-, hreg, he', s₂, hmc, hs'⟩ := initEnum_ok_inv name e s e' s' h
  obtain ⟨-, -, -, hregs, harrs, -, -, -⟩ :=
    mapCandidates_ok_spec (candidatesOf e) s _ s₂ hmc
  subst he'
  subst hs'
  unfold valuesContents
  have hname : ({ e with name := some name, frozen := true } : EnumInst).name =
      some name := rfl
  rw [hname]
  have hrw : (stampClosed s₂ ((candidatesOf e).map Prod.snd)).registry = s₂.registry :=
    (stampClosed_frame s₂ _).2.2.1
  have hlook : lookupS (s₂.registry ++ [(name, s₂.arrays.length)]) name =
      some s₂.arrays.length :=
    lookupS_append_self s₂.registry name s₂.arrays.length (by rw [hregs]; exact hreg)
  show (match (some name).bind
        (lookupS (s₂.registry ++ [(name, s₂.arrays.length)])) with
      | some a => (s₂.arrays ++ [(candidatesOf e).map Prod.snd]).getD a []
      | none => []) = (candidatesOf e).map Prod.snd
  rw [Option.some_bind, hlook]
  exact getD_append_length s₂.arrays _ [] []

theorem initEnum_member_stamped (name : String) (e : EnumInst) (s : GState)
    (e' : EnumInst) (s' : GState)
    (h : Enum.initEnum name e s = (.ok e', s'))
    (p : String) (r : Nat) (hmem : (p, r) ∈ candidatesOf e) :
    ∃ m, s.heap[r]? = some m ∧ m.frozen = false ∧
      memberAt s' r = { m with propName := some p, frozen := true } := by
  obtain ⟨-, -, -, s₂, hmc, hs'⟩ := initEnum_ok_inv name e s e' s' h
  obtain ⟨-, -, -, -, -, -, -, hstamp⟩ :=
    mapCandidates_ok_spec (candidatesOf e) s _ s₂ hmc
  obtain ⟨m, hm, hmfr, hst⟩ := hstamp p r hmem
  refine ⟨m, hm, hmfr, ?_⟩
  have hheap : s'.heap = s₂.heap := by
    rw [hs']
    exact (stampClosed_frame s₂ _).1
  unfold memberAt
  rw [hheap, hst]
  rfl

theorem initEnum_closed_after (name : String) (e : EnumInst) (s : GState)
    (e' : EnumInst) (s' : GState) (c : String × Nat) (cr : List (String × Nat))
    (h : Enum.initEnum name e s = (.ok e', s'))
    (hc : candidatesOf e = c :: cr) :
    s'.closed = addClosed s.closed ((memberAt s c.2).ctorType) := by
  obtain ⟨-, -, -, s₂, hmc, hs'⟩ := initEnum_ok_inv name e s e' s' h
  obtain ⟨-, -, hcl, -, -, -, -, -⟩ :=
    mapCandidates_ok_spec (candidatesOf e) s _ s₂ hmc
  have hpres := mapCandidates_preserve (candidatesOf e) s _ s₂ hmc c.2
  rw [hs', hc]
  show (stampClosed s₂ (c.2 :: cr.map Prod.snd)).closed = _
  unfold stampClosed
  simp only []
  rw [hcl, hpres.1]

theorem initEnum_dup_eq (name : String) (e : EnumInst) (s : GState)
    (s₁ : GState) (vs : List Nat)
    (hfro : e.frozen = false)
    (hreg : lookupS s.registry name = none)
    (hmc : mapCandidates (candidatesOf e) s = (.ok vs, s₁))
    (hdup : ¬(vs.map (fun r => (memberAt s r).description)).Nodup) :
    Enum.initEnum name e s =
      (.error (.duplicateDescription name), stampClosed s₁ vs) := by
  have hdesc : vs.map (fun r => (memberAt (stampClosed s₁ vs) r).description) =
      vs.map (fun r => (memberAt s r).description) := by
    apply List.map_congr_left
    intro r hr
    rw [memberAt_stampClosed]
    exact (mapCandidates_preserve (candidatesOf e) s vs s₁ hmc r).2.2.1
  have hlen : vs.length ≠
      (uniqueJs (vs.map (fun r =>
        (memberAt (stampClosed s₁ vs) r).description))).length := by
    rw [hdesc]
    have := uniqueJs_length_ne_of_dup _ hdup
    simpa using this
  have hev : Enum.enumValuesFromObject { e with name := some name } s =
      (.error (.duplicateDescription name), stampClosed s₁ vs) := by
    unfold Enum.enumValuesFromObject
    rw [candidatesOf_set_name, hmc]
    show (if vs.length ≠ (uniqueJs (vs.map (fun r =>
            (memberAt (stampClosed s₁ vs) r).description))).length
          then ((.error (.duplicateDescription
                  (toStringJs ({ e with name := some name } : EnumInst).name)) :
                    Except JsErr (List Nat)), stampClosed s₁ vs)
          else (.ok vs, stampClosed s₁ vs)) = _
    rw [if_pos hlen]
    rfl
  unfold Enum.initEnum
  rw [hfro]
  rw [if_neg (by simp)]
  rw [hreg]
  rw [if_neg (by simp)]
  show (match Enum.enumValuesFromObject { e with name := some name } s with
        | (.error err, s₂) => ((Except.error err : Except JsErr EnumInst), s₂)
        | (.ok vs₂, s₂) =>
          (Except.ok { e with name := some name, frozen := true },
           { s₂ with arrays := s₂.arrays ++ [vs₂],
                     registry := s₂.registry ++ [(name, s₂.arrays.length)] })) = _
  rw [hev]

theorem initEnum_err_registry (name : String) (e : EnumInst) (s : GState)
    (err : JsErr) (s' : GState)
    (h : Enum.initEnum name e s = (.error err, s')) :
    s'.registry = s.registry := by
  unfold Enum.initEnum at h
  split at h
  · rw [Prod.mk.injEq] at h
    rw [← h.2]
  · split at h
    · rw [Prod.mk.injEq] at h
      rw [← h.2]
    · have h0 : (match Enum.enumValuesFromObject { e with name := some name } s with
                 | (.error err₂, s₂) => ((Except.error err₂ : Except JsErr EnumInst), s₂)
                 | (.ok vs, s₂) =>
                   (Except.ok { e with name := some name, frozen := true },
                    { s₂ with arrays := s₂.arrays ++ [vs],
                              registry := s₂.registry ++ [(name, s₂.arrays.length)] })) =
          (Except.error err, s') := h
      match hev : Enum.enumValuesFromObject { e with name := some name } s with
      | (.ok vs, s₂) =>
        rw [hev] at h0
        have hbad : ((Except.ok { e with name := some name, frozen := true } :
              Except JsErr EnumInst),
            { s₂ with arrays := s₂.arrays ++ [vs],
                      registry := s₂.registry ++ [(name, s₂.arrays.length)] }) =
            (Except.error err, s') := h0
        simp at hbad
      | (.error err₂, s₂) =>
        rw [hev] at h0
        have h1 : ((Except.error err₂ : Except JsErr EnumInst), s₂) =
            (Except.error err, s') := h0
        rw [Prod.mk.injEq] at h1
        have hs2 : s₂ = s' := h1.2
        rcases enumValuesFromObject_err_inv _ s err₂ s₂ hev with
          ⟨s₃, hmc, heq⟩ | ⟨vs, s₃, hmc, heq, -, -⟩
        · have hfr := (mapCandidates_frame
            (candidatesOf { e with name := some name }) s).2.2.1
          rw [hmc] at hfr
          rw [← hs2, heq]
          exact hfr
        · have hfr := (mapCandidates_frame
            (candidatesOf { e with name := some name }) s).2.2.1
          rw [hmc] at hfr
          rw [← hs2, heq, (stampClosed_frame s₃ vs).2.2.1]
          exact hfr

theorem initEnum_frozen_after (name : String) (e : EnumInst) (s : GState)
    (e' : EnumInst) (s' : GState)
    (h : Enum.initEnum name e s = (.ok e', s')) :
    e'.frozen = true ∧
    ∀ r ∈ valuesContents e' s', (memberAt s' r).frozen = true := by
  obtain ⟨-, -, he', -, -, -⟩ := initEnum_ok_inv name e s e' s' h
  constructor
  · rw [he']
  · intro r hr
    rw [valuesContents_after_init name e s e' s' h] at hr
    obtain ⟨pr, hpr, hpr2⟩ := List.mem_map.mp hr
    obtain ⟨m, -, -, hst⟩ := initEnum_member_stamped name e s e' s' h pr.1 r (by
      rw [show (pr.1, r) = pr from by rw [← hpr2]]
      exact hpr)
    rw [hst]

theorem find_first_stamped (cs : List (String × Nat)) (s' : GState)
    (hstamp : ∀ pr ∈ cs, (memberAt s' pr.2).propName = some pr.1)
    (hnodup : (cs.map Prod.fst).Nodup)
    (p : String) (r : Nat) (hmem : (p, r) ∈ cs) :
    (cs.map Prod.snd).find? (fun r' => (memberAt s' r').propName == some p) =
      some r := by
  induction cs with
  | nil => simp at hmem
  | cons c rest ih =>
    rw [List.map_cons]
    have hc := hstamp c (List.mem_cons_self c rest)
    rw [List.map_cons, List.nodup_cons] at hnodup
    by_cases hpc : c.1 = p
    · have hhd : (p, r) = c := by
        rw [List.mem_cons] at hmem
        cases hmem with
        | inl hh => exact hh
        | inr hh =>
          exfalso
          exact hnodup.1 (by
            rw [hpc]
            exact List.mem_map.mpr ⟨(p, r), hh, rfl⟩)
      have hr : r = c.2 := congrArg Prod.snd hhd
      rw [List.find?_cons_of_pos _ (by rw [hc, hpc]; simp), hr]
    · rw [List.find?_cons_of_neg _ (by rw [hc]; simpa using fun hh => hpc hh)]
      refine ih ?_ hnodup.2 ?_
      · intro pr hpr
        exact hstamp pr (List.mem_cons_of_mem c hpr)
      · rw [List.mem_cons] at hmem
        cases hmem with
        | inl hh =>
          exact absurd (congrArg Prod.fst hh).symm hpc
        | inr hh => exact hh

theorem find?_of_filter_singleton {α : Type} (l : List α) (p : α → Bool) (a : α)
    (h : l.filter p = [a]) : l.find? p = some a := by
  induction l with
  | nil => simp at h
  | cons x rest ih =>
    rw [List.filter_cons] at h
    by_cases hx : p x
    · rw [if_pos hx] at h
      rw [List.cons.injEq] at h
      rw [List.find?_cons_of_pos _ hx, h.1]
    · rw [if_neg hx] at h
      rw [List.find?_cons_of_neg _ (by simpa using hx)]
      exact ih h

theorem filterMap_zip_member (ps : List String) (rs : List Nat) :
    (ps.zip (rs.map FieldVal.member)).filterMap (fun pv =>
      match pv.2 with
      | .member r => some (pv.1, r)
      | .other => none) = ps.zip rs := by
  induction ps generalizing rs with
  | nil => simp
  | cons p pt ih =>
    cases rs with
    | nil => simp
    | cons r rt =>
      rw [List.map_cons, List.zip_cons_cons, List.filterMap_cons, List.zip_cons_cons]
      simp only []
      rw [ih rt]

theorem candidatesOf_zip (nm : Option String) (fr : Bool)
    (ps : List String) (rs : List Nat) :
    candidatesOf { name := nm, fields := ps.zip (rs.map FieldVal.member),
                   frozen := fr } = ps.zip rs :=
  filterMap_zip_member ps rs

theorem constructAll_closed_err (t : Nat) (tn : String) (d : String)
    (ds : List String) (s : GState) (hc : t ∈ s.closed) :
    constructAll t tn (d :: ds) s = (.error .postClosureInstantiation, s) := by
  have hcont : s.closed.contains t = true := contains_iff_memN.mpr hc
  have hcon : EnumValue.construct t tn d s = (.error .postClosureInstantiation, s) := by
    unfold EnumValue.construct
    rw [hcont]
    rfl
  unfold constructAll
  rw [hcon]

theorem newEnumInstance_closed_err (t : Nat) (tn : String)
    (defs : List (String × String)) (name : String) (s : GState)
    (hclosed : t ∈ s.closed) (hne : defs ≠ []) :
    newEnumInstance t tn defs name s = (.error .postClosureInstantiation, s) := by
  cases defs with
  | nil => exact absurd rfl hne
  | cons d dr =>
    have hca : constructAll t tn ((d :: dr).map Prod.snd) s =
        (.error .postClosureInstantiation, s) := by
      rw [List.map_cons]
      exact constructAll_closed_err t tn d.2 (dr.map Prod.snd) s hclosed
    unfold newEnumInstance
    rw [hca]

theorem constructAll_open_of_ok (t : Nat) (tn d : String) (ds : List String)
    (s : GState) (rs : List Nat) (s₁ : GState)
    (h : constructAll t tn (d :: ds) s = (.ok rs, s₁)) : t ∉ s.closed := by
  intro hc
  rw [constructAll_closed_err t tn d ds s hc] at h
  simp at h

theorem newEnumInstance_closes (t : Nat) (tn : String) (d : String × String)
    (dr : List (String × String)) (name : String) (s : GState)
    (e' : EnumInst) (s' : GState)
    (h : newEnumInstance t tn (d :: dr) name s = (.ok e', s')) :
    t ∉ s.closed ∧ t ∈ s'.closed := by
  unfold newEnumInstance at h
  match hca : constructAll t tn ((d :: dr).map Prod.snd) s with
  | (.error err, s₁) =>
    rw [hca] at h
    simp at h
  | (.ok rs, s₁) =>
    rw [hca] at h
    have hinit : Enum.initEnum name
        { name := none,
          fields := ((d :: dr).map Prod.fst).zip (rs.map FieldVal.member),
          frozen := false } s₁ = (.ok e', s') := h
    have hopen : t ∉ s.closed := by
      rw [List.map_cons] at hca
      exact constructAll_open_of_ok t tn d.2 (dr.map Prod.snd) s rs s₁ hca
    obtain ⟨sz, hok⟩ := constructAll_ok t tn ((d :: dr).map Prod.snd) s hopen
    rw [hca] at hok
    rw [Prod.mk.injEq] at hok
    have hrs : rs = List.range' s.heap.length ((d :: dr).map Prod.snd).length := by
      simpa using hok.1
    have hs₁ : s₁ = { heap := s.heap ++ mkMembers t tn (getSizeJs s.sizes t)
                        ((d :: dr).map Prod.snd),
                      sizes := sz, closed := s.closed, registry := s.registry,
                      arrays := s.arrays } := hok.2
    have hrs' : rs = s.heap.length ::
        List.range' (s.heap.length + 1) (dr.map Prod.snd).length := by
      rw [hrs, List.map_cons]
      simp [List.range'_succ]
    have hcand : candidatesOf
        { name := none,
          fields := ((d :: dr).map Prod.fst).zip (rs.map FieldVal.member),
          frozen := false } =
        (d.1, s.heap.length) ::
          (dr.map Prod.fst).zip
            (List.range' (s.heap.length + 1) (dr.map Prod.snd).length) := by
      rw [candidatesOf_zip, hrs', List.map_cons, List.zip_cons_cons]
    have hclosed := initEnum_closed_after name _ s₁ e' s' _ _ hinit hcand
    have hmem : memberAt s₁ s.heap.length =
        { ctorType := t, ctorName := tn, description := d.2,
          ordinal := getSizeJs s.sizes t, propName := none, frozen := false } := by
      rw [memberAt_eq_getD, hs₁]
      show (s.heap ++ mkMembers t tn (getSizeJs s.sizes t)
          ((d :: dr).map Prod.snd)).getD s.heap.length defaultMember = _
      rw [List.map_cons]
      rw [show mkMembers t tn (getSizeJs s.sizes t) (d.2 :: dr.map Prod.snd) =
            { ctorType := t, ctorName := tn, description := d.2,
              ordinal := getSizeJs s.sizes t, propName := none, frozen := false } ::
              mkMembers t tn (getSizeJs s.sizes t + 1) (dr.map Prod.snd) from rfl]
      exact getD_append_length s.heap _ _ defaultMember
    refine ⟨hopen, ?_⟩
    rw [hclosed, hmem]
    have hcl₁ : s₁.closed = s.closed := by rw [hs₁]
    rw [hcl₁] at hclosed ⊢
    exact (mem_addClosed s.closed t t).mpr (Or.inl rfl)

theorem lookupS_mem {α : Type} (l : List (String × α)) (k : String) (x : α)
    (h : lookupS l k = some x) : (k, x) ∈ l := by
  induction l with
  | nil => simp [lookupS_nil] at h
  | cons p rest ih =>
    rw [lookupS_cons] at h
    by_cases hpk : p.1 = k
    · rw [if_pos (by simpa using hpk)] at h
      rw [Option.some_inj] at h
      rw [List.mem_cons]
      exact Or.inl (by rw [← h, ← hpk])
    · rw [if_neg (by simpa using hpk)] at h
      exact List.mem_cons_of_mem p (ih h)

theorem candidatesOf_of_lookup (e : EnumInst) (p : String) (r : Nat)
    (h : lookupS e.fields p = some (.member r)) : (p, r) ∈ candidatesOf e := by
  unfold candidatesOf
  rw [List.mem_filterMap]
  exact ⟨(p, .member r), lookupS_mem e.fields p (.member r) h, rfl⟩

/-!
Specification of the value-based closure (`immInitEnum`).
-/

theorem immCandidatesOf_set_name (e : ImmEnum) (x : Option String) :
    immCandidatesOf { e with name := x } = immCandidatesOf e := rfl


theorem immStampClosed_frame (s : ImmState) (vs : List ImmValue) :
    (immStampClosed s vs).registry = s.registry ∧
    (immStampClosed s vs).sizes = s.sizes := by
  cases vs with
  | nil => exact ⟨rfl, rfl⟩
  | cons v vr => exact ⟨rfl, rfl⟩

theorem immInitEnum_ok_inv (name : String) (e : ImmEnum) (s : ImmState)
    (e' : ImmEnum) (s' : ImmState)
    (h : immInitEnum name e s = (.ok e', s')) :
    e.frozen = false ∧ lookupS s.registry name = none ∧
    e' = { name := some name, fields := e.fields.map immMergeField,
           frozen := true } ∧
    s'.registry = s.registry ++
      [(name, (immCandidatesOf e).map (fun pv => pv.2.mergeProp pv.1))] ∧
    s'.closed = (immStampClosed s
      ((immCandidatesOf e).map (fun pv => pv.2.mergeProp pv.1))).closed ∧
    s'.sizes = s.sizes := by
  unfold immInitEnum at h
  split at h
  · simp at h
  · rename_i hfro
    split at h
    · simp at h
    · rename_i hreg
      have h0 : (match immEnumValuesFromObject { e with name := some name } s with
                 | (.error err, _, s₂) => ((Except.error err : Except JsErr ImmEnum), s₂)
                 | (.ok vs, e₂, s₂) =>
                   (Except.ok { e₂ with frozen := true },
                    { s₂ with registry := s₂.registry ++ [(name, vs)] })) =
          (Except.ok e', s') := h
      have hfro' : e.frozen = false := by simpa using hfro
      have hreg' : lookupS s.registry name = none := by
        cases hlk : lookupS s.registry name with
        | none => rfl
        | some a => rw [hlk] at hreg; simp at hreg
      by_cases hdup : ((immCandidatesOf e).map (fun pv => pv.2.mergeProp pv.1)).length ≠
          (uniqueJs (((immCandidatesOf e).map (fun pv => pv.2.mergeProp pv.1)).map
            (·.description))).length
      · have hval : immEnumValuesFromObject { e with name := some name } s =
            (.error (.duplicateDescription (toStringJs (some name))),
             { name := some name, fields := e.fields.map immMergeField, frozen := e.frozen },
             immStampClosed s
               ((immCandidatesOf e).map (fun pv => pv.2.mergeProp pv.1))) := by
          show (if ((immCandidatesOf e).map (fun pv => pv.2.mergeProp pv.1)).length ≠
                  (uniqueJs (((immCandidatesOf e).map (fun pv => pv.2.mergeProp pv.1)).map
                    (·.description))).length
                then ((.error (.duplicateDescription (toStringJs (some name))) :
                        Except JsErr (List ImmValue)),
                      ({ name := some name, fields := e.fields.map immMergeField, frozen := e.frozen } : ImmEnum),
                      immStampClosed s ((immCandidatesOf e).map (fun pv => pv.2.mergeProp pv.1)))
                else (.ok ((immCandidatesOf e).map (fun pv => pv.2.mergeProp pv.1)),
                      ({ name := some name, fields := e.fields.map immMergeField, frozen := e.frozen } : ImmEnum),
                      immStampClosed s ((immCandidatesOf e).map (fun pv => pv.2.mergeProp pv.1)))) = _
          rw [if_pos hdup]
        rw [hval] at h0
        have hbad : ((Except.error (.duplicateDescription (toStringJs (some name))) :
              Except JsErr ImmEnum),
            immStampClosed s
              ((immCandidatesOf e).map (fun pv => pv.2.mergeProp pv.1))) =
            (Except.ok e', s') := h0
        simp at hbad
      · have hval : immEnumValuesFromObject { e with name := some name } s =
            (.ok ((immCandidatesOf e).map (fun pv => pv.2.mergeProp pv.1)),
             { name := some name, fields := e.fields.map immMergeField, frozen := e.frozen },
             immStampClosed s
               ((immCandidatesOf e).map (fun pv => pv.2.mergeProp pv.1))) := by
          show (if ((immCandidatesOf e).map (fun pv => pv.2.mergeProp pv.1)).length ≠
                  (uniqueJs (((immCandidatesOf e).map (fun pv => pv.2.mergeProp pv.1)).map
                    (·.description))).length
                then ((.error (.duplicateDescription (toStringJs (some name))) :
                        Except JsErr (List ImmValue)),
                      ({ name := some name, fields := e.fields.map immMergeField, frozen := e.frozen } : ImmEnum),
                      immStampClosed s ((immCandidatesOf e).map (fun pv => pv.2.mergeProp pv.1)))
                else (.ok ((immCandidatesOf e).map (fun pv => pv.2.mergeProp pv.1)),
                      ({ name := some name, fields := e.fields.map immMergeField, frozen := e.frozen } : ImmEnum),
                      immStampClosed s ((immCandidatesOf e).map (fun pv => pv.2.mergeProp pv.1)))) = _
          rw [if_neg hdup]
        rw [hval] at h0
        have hgood :
            ((Except.ok { name := some name, fields := e.fields.map immMergeField, frozen := true } : Except JsErr ImmEnum),
             { immStampClosed s ((immCandidatesOf e).map (fun pv => pv.2.mergeProp pv.1)) with
                registry := (immStampClosed s ((immCandidatesOf e).map (fun pv => pv.2.mergeProp pv.1))).registry
                  ++ [(name, (immCandidatesOf e).map (fun pv => pv.2.mergeProp pv.1))] }) =
            (Except.ok e', s') := h0
        rw [Prod.mk.injEq] at hgood
        obtain ⟨h1, h2⟩ := hgood
        refine ⟨hfro', hreg', by simpa using h1.symm, ?_, ?_, ?_⟩
        · rw [← h2]
          show (immStampClosed s _).registry ++ _ = _
          rw [(immStampClosed_frame s _).1]
        · rw [← h2]
        · rw [← h2]
          show (immStampClosed s _).sizes = s.sizes
          exact (immStampClosed_frame s _).2

theorem immMergeField_key (pv : String × ImmField) : (immMergeField pv).1 = pv.1 := by
  obtain ⟨p, fv⟩ := pv
  cases fv with
  | member v => rfl
  | other => rfl

theorem lookupS_map_mergeField (l : List (String × ImmField)) (k : String)
    (v : ImmValue) (h : lookupS l k = some (.member v)) :
    lookupS (l.map immMergeField) k = some (.member (v.mergeProp k)) := by
  induction l with
  | nil => simp [lookupS_nil] at h
  | cons p rest ih =>
    rw [lookupS_cons] at h
    rw [List.map_cons, lookupS_cons, immMergeField_key]
    by_cases hpk : p.1 = k
    · rw [if_pos (by simpa using hpk)] at h ⊢
      rw [Option.some_inj] at h
      obtain ⟨q, fv⟩ := p
      have hq : q = k := hpk
      subst hq
      cases fv with
      | member w =>
        have hw : w = v := by simpa [ImmField.member.injEq] using h
        subst hw
        rfl
      | other => simp at h
    · rw [if_neg (by simpa using hpk)] at h ⊢
      exact ih h

theorem immCandidatesOf_of_lookup (e : ImmEnum) (p : String) (v : ImmValue)
    (h : lookupS e.fields p = some (.member v)) : (p, v) ∈ immCandidatesOf e := by
  unfold immCandidatesOf
  rw [List.mem_filterMap]
  exact ⟨(p, .member v), lookupS_mem e.fields p (.member v) h, rfl⟩

theorem imm_find_first (cs : List (String × ImmValue))
    (hnodup : (cs.map Prod.fst).Nodup) (p : String) (v : ImmValue)
    (hmem : (p, v) ∈ cs) :
    (cs.map (fun pv => pv.2.mergeProp pv.1)).find?
      (fun w => w.propName == some p) = some (v.mergeProp p) := by
  induction cs with
  | nil => simp at hmem
  | cons c rest ih =>
    rw [List.map_cons]
    rw [List.map_cons, List.nodup_cons] at hnodup
    by_cases hpc : c.1 = p
    · have hhd : (p, v) = c := by
        rw [List.mem_cons] at hmem
        cases hmem with
        | inl hh => exact hh
        | inr hh =>
          exact absurd (by
            rw [hpc]
            exact List.mem_map.mpr ⟨(p, v), hh, rfl⟩) hnodup.1
      have hv : v = c.2 := congrArg Prod.snd hhd
      have hp : p = c.1 := (congrArg Prod.fst hhd).symm ▸ hpc.symm
      rw [List.find?_cons_of_pos _ (by
        show ((c.2.mergeProp c.1).propName == some p) = true
        simp [ImmValue.mergeProp, hpc])]
      rw [hv, ← hpc]
    · rw [List.find?_cons_of_neg _ (by
        show ¬((c.2.mergeProp c.1).propName == some p) = true
        simp [ImmValue.mergeProp, hpc])]
      refine ih hnodup.2 ?_
      rw [List.mem_cons] at hmem
      cases hmem with
      | inl hh => exact absurd (congrArg Prod.fst hh).symm hpc
      | inr hh => exact hh

theorem immValuesContents_after_init (name : String) (e : ImmEnum) (s : ImmState)
    (e' : ImmEnum) (s' : ImmState)
    (h : immInitEnum name e s = (.ok e', s')) :
    immValuesContents e' s' =
      (immCandidatesOf e).map (fun pv => pv.2.mergeProp pv.1) := by
  obtain ⟨-, hreg, he', hregs, -, -⟩ := immInitEnum_ok_inv name e s e' s' h
  unfold immValuesContents
  rw [he', hregs]
  show (match (some name).bind
      (lookupS (s.registry ++
        [(name, (immCandidatesOf e).map (fun pv => pv.2.mergeProp pv.1))])) with
    | some vs => vs
    | none => []) = _
  rw [Option.some_bind, lookupS_append_self s.registry name _ hreg]

theorem initEnum_dupname_eq (name : String) (e : EnumInst) (s : GState)
    (hfro : e.frozen = false)
    (hreg : (lookupS s.registry name).isSome = true) :
    Enum.initEnum name e s = (.error (.duplicateName name), s) := by
  unfold Enum.initEnum
  rw [hfro]
  rw [if_neg (by simp)]
  rw [if_pos hreg]

theorem candidates_fst_sublist (e : EnumInst) :
    ((candidatesOf e).map Prod.fst).Sublist (e.fields.map Prod.fst) := by
  show (((e.fields).filterMap _).map Prod.fst).Sublist (e.fields.map Prod.fst)
  induction e.fields with
  | nil => simp
  | cons pv rest ih =>
    obtain ⟨p, fv⟩ := pv
    cases fv with
    | member r =>
      rw [List.filterMap_cons]
      simp only [List.map_cons]
      exact List.Sublist.cons₂ p ih
    | other =>
      rw [List.filterMap_cons]
      simp only [List.map_cons]
      exact List.Sublist.cons p ih

theorem immCandidates_fst_sublist (e : ImmEnum) :
    ((immCandidatesOf e).map Prod.fst).Sublist (e.fields.map Prod.fst) := by
  show (((e.fields).filterMap _).map Prod.fst).Sublist (e.fields.map Prod.fst)
  induction e.fields with
  | nil => simp
  | cons pv rest ih =>
    obtain ⟨p, fv⟩ := pv
    cases fv with
    | member v =>
      rw [List.filterMap_cons]
      simp only [List.map_cons]
      exact List.Sublist.cons₂ p ih
    | other =>
      rw [List.filterMap_cons]
      simp only [List.map_cons]
      exact List.Sublist.cons p ih

/-!
The claim theorems.
-/

/-- C1: for every concrete Member (EnumValue) subtype, once its enclosing
Enumeration has completed closure (`initEnum` returned successfully, the
enumeration's candidate members all belonging to that subtype), every
subsequent attempt to construct another instance of the same concrete
subtype throws the post-closure instantiation error, with the check firing
at construction entry before any other work: the returned state is exactly
the state the constructor was entered with (no counter bump, no
allocation).  Proved for both protocol variants (`ts-enums.ts` and
`immutable-enums.ts`). -/
theorem claim1_post_closure_member_lock
    (name : String) (e : EnumInst) (s : GState) (e' : EnumInst) (s' : GState)
    (t : Nat) (tname descr : String)
    (hrun : Enum.initEnum name e s = (.ok e', s'))
    (hne : candidatesOf e ≠ [])
    (hall : ∀ pr ∈ candidatesOf e, (memberAt s pr.2).ctorType = t)
    (iname : String) (ie : ImmEnum) (is : ImmState) (ie' : ImmEnum)
    (is' : ImmState)
    (irun : immInitEnum iname ie is = (.ok ie', is'))
    (ine : immCandidatesOf ie ≠ [])
    (iall : ∀ pv ∈ immCandidatesOf ie, pv.2.ctorType = t) :
    EnumValue.construct t tname descr s' = (.error .postClosureInstantiation, s') ∧
    ImmValue.construct t tname descr is' = (.error .postClosureInstantiation, is') := by
  constructor
  · obtain ⟨c, cr, hc⟩ := List.exists_cons_of_ne_nil hne
    have hclosed := initEnum_closed_after name e s e' s' c cr hrun hc
    have hct : (memberAt s c.2).ctorType = t :=
      hall c (by rw [hc]; exact List.mem_cons_self c cr)
    have hmem : t ∈ s'.closed := by
      rw [hclosed, hct]
      exact (mem_addClosed s.closed t t).mpr (Or.inl rfl)
    unfold EnumValue.construct
    rw [contains_iff_memN.mpr hmem]
    rfl
  · obtain ⟨c, cr, hc⟩ := List.exists_cons_of_ne_nil ine
    obtain ⟨-, -, -, -, hclosed, -⟩ := immInitEnum_ok_inv iname ie is ie' is' irun
    have hct : c.2.ctorType = t := iall c (by rw [hc]; exact List.mem_cons_self c cr)
    have hmem : t ∈ is'.closed := by
      rw [hclosed, hc, List.map_cons]
      show t ∈ (immStampClosed is (c.2.mergeProp c.1 ::
        cr.map (fun pv => pv.2.mergeProp pv.1))).closed
      unfold immStampClosed
      simp only []
      have hmct : (c.2.mergeProp c.1).ctorType = t := hct
      rw [hmct]
      exact (mem_addClosed is.closed t t).mpr (Or.inl rfl)
    unfold ImmValue.construct
    rw [contains_iff_memN.mpr hmem]
    rfl

/-- Witness for C1 at the `Color` scenario of the repository's tests: after
closure, `new Color('foo')` throws in both variants and the state is
untouched. -/
theorem claim1_witness :
    EnumValue.construct 0 "Color" "foo" demoClosedState =
      (.error .postClosureInstantiation, demoClosedState) ∧
    ImmValue.construct 0 "Color" "foo" immDemoClosedState =
      (.error .postClosureInstantiation, immDemoClosedState) :=
  claim1_post_closure_member_lock "Color" demoEnum demoRes.2 demoClosedEnum
    demoClosedState 0 "Color" "foo" rfl (by decide) (by decide)
    "Color" immDemoEnum immDemoPre immDemoClosedEnum immDemoClosedState
    rfl (by decide) (by decide)

/-- C2 counterexample: the claim fails on the code.  A concrete Enumeration
subtype that declares no member fields completes closure under the name
`"A"`; constructing a second instance of that same subtype then SUCCEEDS
under a fresh name `"B"` (nothing locks the Enumeration subtype itself),
and reusing the name `"A"` fails with the duplicate-name registry error —
not the post-closure instantiation error Member construction throws.  So
the implementation does not track "is this concrete Enumeration subtype
already initialized" independently of the name registry. -/
theorem claim2_counterexample :
    (newEnumInstance 7 "EmptyMembers" [] "A" gs0).1 =
      .ok { name := some "A", fields := [], frozen := true } ∧
    (newEnumInstance 7 "EmptyMembers" [] "B"
        (newEnumInstance 7 "EmptyMembers" [] "A" gs0).2).1 =
      .ok { name := some "B", fields := [], frozen := true } ∧
    (newEnumInstance 7 "EmptyMembers" [] "A"
        (newEnumInstance 7 "EmptyMembers" [] "A" gs0).2).1 =
      .error (.duplicateName "A") := by
  refine ⟨rfl, rfl, rfl⟩

/-- C2 amended: a second construction of an already-closed concrete
Enumeration subtype that has at least one member field fails with the same
post-closure instantiation error as Member construction — because it IS the
first Member field initialiser that throws (the Member-subtype lock), before
`initEnum` is reached; the duplicate-name registry check is a separate,
later fail-fast point that fires (as `DuplicateEnumerationNameError`) only
for a construction that gets through its field initialisers, e.g. one with
no member fields reusing the registered name.  There is no per-Enumeration-
subtype initialized flag independent of the name registry. -/
theorem claim2_amended_two_checks
    (t : Nat) (tn : String) (d : String × String) (dr : List (String × String))
    (name name2 : String) (s : GState) (e' : EnumInst) (s' : GState)
    (h : newEnumInstance t tn (d :: dr) name s = (.ok e', s')) :
    newEnumInstance t tn (d :: dr) name2 s' =
      (.error .postClosureInstantiation, s') ∧
    (∀ (t₂ : Nat) (tn₂ : String),
      newEnumInstance t₂ tn₂ [] name s' = (.error (.duplicateName name), s')) := by
  obtain ⟨hopen, hclosed⟩ := newEnumInstance_closes t tn d dr name s e' s' h
  constructor
  · exact newEnumInstance_closed_err t tn (d :: dr) name2 s' hclosed (by simp)
  · intro t₂ tn₂
    have hreg : (lookupS s'.registry name).isSome = true := by
      unfold newEnumInstance at h
      match hca : constructAll t tn ((d :: dr).map Prod.snd) s with
      | (.error err, s₁) =>
        rw [hca] at h
        simp at h
      | (.ok rs, s₁) =>
        rw [hca] at h
        have hinit : Enum.initEnum name
            { name := none,
              fields := ((d :: dr).map Prod.fst).zip (rs.map FieldVal.member),
              frozen := false } s₁ = (.ok e', s') := h
        obtain ⟨-, hregnone, -, s₂, hmc, hs'⟩ :=
          initEnum_ok_inv name _ s₁ e' s' hinit
        obtain ⟨-, -, -, hregs, -, -, -, -⟩ :=
          mapCandidates_ok_spec _ s₁ _ s₂ hmc
        rw [hs']
        show (lookupS (s₂.registry ++ [(name, s₂.arrays.length)]) name).isSome = true
        rw [lookupS_append_self s₂.registry name s₂.arrays.length
          (by rw [hregs]; exact hregnone)]
        rfl
    show (match constructAll t₂ tn₂ (([] : List (String × String)).map Prod.snd) s' with
          | (.error e, s₁) => ((Except.error e : Except JsErr EnumInst), s₁)
          | (.ok rs, s₁) =>
            Enum.initEnum name
              { name := none,
                fields := (([] : List (String × String)).map Prod.fst).zip
                  (rs.map FieldVal.member),
                frozen := false } s₁) = (.error (.duplicateName name), s')
    show Enum.initEnum name { name := none, fields := [], frozen := false } s' =
      (.error (.duplicateName name), s')
    exact initEnum_dupname_eq name _ s' rfl hreg

/-- Witness for C2's amended claim at the `Color` blueprint: the second
construction throws the post-closure instantiation error, and a memberless
construction reusing the name `"Color"` throws the duplicate-name error. -/
theorem claim2_witness :
    newEnumInstance 0 "Color" bpDefs "Color2" bpState =
      (.error .postClosureInstantiation, bpState) ∧
    (∀ (t₂ : Nat) (tn₂ : String),
      newEnumInstance t₂ tn₂ [] "Color" bpState =
        (.error (.duplicateName "Color"), bpState)) :=
  claim2_amended_two_checks 0 "Color" ("RED", "RED name")
    [("GREEN", "GREEN name"), ("BLUE", "BLUE name")] "Color" "Color2" gs0
    bpEnum bpState rfl

/-- C3: when `initEnum` fails on the duplicate-description check (two
discovered members share a description), the thrown error names the
enumeration, and no entry for the name is written to the process-wide
registry — the registry is unchanged, so the name-uniqueness check of a
subsequent `initialize` with the same name still finds the name absent.
Moreover (last conjunct) EVERY failing `initEnum`, at whatever step, leaves
the registry exactly as it was: the registry write is strictly last. -/
theorem claim3_failed_init_writes_no_registry_entry
    (name : String) (e : EnumInst) (s : GState) (vs : List Nat) (s₁ : GState)
    (hfro : e.frozen = false)
    (hreg : lookupS s.registry name = none)
    (hmc : mapCandidates (candidatesOf e) s = (.ok vs, s₁))
    (hdup : ¬(vs.map (fun r => (memberAt s r).description)).Nodup) :
    (Enum.initEnum name e s).1 = .error (.duplicateDescription name) ∧
    (Enum.initEnum name e s).2.registry = s.registry ∧
    lookupS (Enum.initEnum name e s).2.registry name = none ∧
    (∀ (name₂ : String) (e₂ : EnumInst) (s₂ : GState) (err₂ : JsErr)
        (s₂' : GState), Enum.initEnum name₂ e₂ s₂ = (.error err₂, s₂') →
      s₂'.registry = s₂.registry) := by
  have heq := initEnum_dup_eq name e s s₁ vs hfro hreg hmc hdup
  have hregeq : (stampClosed s₁ vs).registry = s.registry := by
    rw [(stampClosed_frame s₁ vs).2.2.1]
    have hfr := (mapCandidates_frame (candidatesOf e) s).2.2.1
    rw [hmc] at hfr
    exact hfr
  refine ⟨by rw [heq], ?_, ?_, ?_⟩
  · rw [heq]
    exact hregeq
  · rw [heq]
    show lookupS (stampClosed s₁ vs).registry name = none
    rw [hregeq]
    exact hreg
  · intro name₂ e₂ s₂ err₂ s₂' h₂
    exact initEnum_err_registry name₂ e₂ s₂ err₂ s₂' h₂

/-- Witness for C3 at the duplicate-description demo (two members of class
`Dup` both described `"x"`). -/
theorem claim3_witness :
    (Enum.initEnum "Dup" dupEnum dupRes.2).1 =
      .error (.duplicateDescription "Dup") ∧
    (Enum.initEnum "Dup" dupEnum dupRes.2).2.registry = dupRes.2.registry ∧
    lookupS (Enum.initEnum "Dup" dupEnum dupRes.2).2.registry "Dup" = none ∧
    (∀ (name₂ : String) (e₂ : EnumInst) (s₂ : GState) (err₂ : JsErr)
        (s₂' : GState), Enum.initEnum name₂ e₂ s₂ = (.error err₂, s₂') →
      s₂'.registry = s₂.registry) :=
  claim3_failed_init_writes_no_registry_entry "Dup" dupEnum dupRes.2
    dupVs dupStamped rfl rfl rfl (by decide)

/-- C4: for a closed Enumeration with N members, under the precondition
that every constructed instance of the concrete Member subtype is bound to
a field of that one Enumeration (fresh per-subtype counter, the fields
being exactly the constructed members in construction order), the
registered member sequence is the constructed sequence, and its ordinals
are exactly 0, …, N−1 in declaration order — each appearing once. -/
theorem claim4_ordinal_density
    (t : Nat) (tn name : String) (descrs fnames : List String) (s : GState)
    (vs : List Nat) (s₁ : GState) (e' : EnumInst) (s₂ : GState)
    (hfresh : getSizeJs s.sizes t = 0)
    (hopen : t ∉ s.closed)
    (hlen : fnames.length = descrs.length)
    (hca : constructAll t tn descrs s = (.ok vs, s₁))
    (hinit : Enum.initEnum name
      { name := none, fields := fnames.zip (vs.map FieldVal.member),
        frozen := false } s₁ = (.ok e', s₂)) :
    valuesContents e' s₂ = vs ∧
    vs.map (fun r => (memberAt s₂ r).ordinal) = List.range descrs.length := by
  obtain ⟨sz, hok⟩ := constructAll_ok t tn descrs s hopen
  rw [hca, Prod.mk.injEq] at hok
  have hvs : vs = List.range' s.heap.length descrs.length := by simpa using hok.1
  have hs₁ : s₁ = { heap := s.heap ++ mkMembers t tn (getSizeJs s.sizes t) descrs,
                    sizes := sz, closed := s.closed, registry := s.registry,
                    arrays := s.arrays } := hok.2
  have hvslen : vs.length = descrs.length := by rw [hvs, List.length_range']
  have hcand : candidatesOf
      { name := none, fields := fnames.zip (vs.map FieldVal.member),
        frozen := false } = fnames.zip vs := candidatesOf_zip none false fnames vs
  have hsnd : (fnames.zip vs).map Prod.snd = vs :=
    List.map_snd_zip fnames vs (by rw [hvslen, hlen])
  constructor
  · rw [valuesContents_after_init name _ s₁ e' s₂ hinit, hcand, hsnd]
  · obtain ⟨-, -, -, s₃, hmc, hs₂⟩ := initEnum_ok_inv name _ s₁ e' s₂ hinit
    have hheap : s₂.heap = s₃.heap := by
      rw [hs₂]
      exact (stampClosed_frame s₃ _).1
    have hord : ∀ r, (memberAt s₂ r).ordinal = (memberAt s₁ r).ordinal := by
      intro r
      have h1 : memberAt s₂ r = memberAt s₃ r := by
        unfold memberAt
        rw [hheap]
      rw [h1]
      exact (mapCandidates_preserve _ s₁ _ s₃ hmc r).2.2.2
    rw [List.map_congr_left (fun r _ => hord r)]
    have hmm : vs.map (fun r => memberAt s₁ r) =
        mkMembers t tn (getSizeJs s.sizes t) descrs := by
      rw [hvs]
      have := map_getD_range' s.heap
        (mkMembers t tn (getSizeJs s.sizes t) descrs) defaultMember
      rw [mkMembers_length] at this
      calc (List.range' s.heap.length descrs.length).map (fun r => memberAt s₁ r)
          = (List.range' s.heap.length descrs.length).map
              (fun r => (s.heap ++ mkMembers t tn (getSizeJs s.sizes t)
                descrs).getD r defaultMember) := by
            apply List.map_congr_left
            intro r _
            rw [memberAt_eq_getD, hs₁]
        _ = mkMembers t tn (getSizeJs s.sizes t) descrs := this
    calc vs.map (fun r => (memberAt s₁ r).ordinal)
        = (vs.map (fun r => memberAt s₁ r)).map (·.ordinal) := by
          rw [List.map_map]
          rfl
      _ = (mkMembers t tn (getSizeJs s.sizes t) descrs).map (·.ordinal) := by
          rw [hmm]
      _ = List.range' (getSizeJs s.sizes t) descrs.length :=
          mkMembers_map_ordinal t tn _ descrs
      _ = List.range descrs.length := by
          rw [hfresh, ← List.range_eq_range']

/-- Witness for C4 at the `Color` scenario: the registered sequence is the
three constructed members and their ordinals are `[0, 1, 2]`. -/
theorem claim4_witness :
    valuesContents demoClosedEnum demoClosedState = [0, 1, 2] ∧
    ([0, 1, 2] : List Nat).map
      (fun r => (memberAt demoClosedState r).ordinal) = List.range 3 :=
  claim4_ordinal_density 0 "Color" "Color"
    ["RED name", "GREEN name", "BLUE name"] ["RED", "GREEN", "BLUE"] gs0
    [0, 1, 2] demoRes.2 demoClosedEnum demoClosedState rfl (by decide)
    rfl rfl rfl

/-- C5: after closure, any assignment to a field of the closed Enumeration
instance (overwriting or adding), and any assignment to a field of a closed
Member (`_description`, `_ordinal` or `_propName`), throws the strict-mode
frozen-mutation error, and the stored state comes back unchanged — writes
are rejected, never silently ignored. -/
theorem claim5_frozen_after_closure
    (name : String) (e : EnumInst) (s : GState) (e' : EnumInst) (s' : GState)
    (h : Enum.initEnum name e s = (.ok e', s'))
    (p : String) (fv : FieldVal) (f : MField) :
    e'.setField p fv = (.error .frozenMutation, e') ∧
    ∀ r ∈ valuesContents e' s',
      memberWrite s' r f = (.error .frozenMutation, s') := by
  obtain ⟨hfro, hmem⟩ := initEnum_frozen_after name e s e' s' h
  constructor
  · unfold EnumInst.setField
    rw [hfro]
    rfl
  · intro r hr
    have hfr := hmem r hr
    rw [valuesContents_after_init name e s e' s' h] at hr
    obtain ⟨pr, hpr, hpr2⟩ := List.mem_map.mp hr
    obtain ⟨m, hm, -, hst⟩ := initEnum_member_stamped name e s e' s' h pr.1 r (by
      rw [show (pr.1, r) = pr from by rw [← hpr2]]
      exact hpr)
    have hsome : s'.heap[r]? = some { m with propName := some pr.1, frozen := true } := by
      have hlt : r < s.heap.length := (List.getElem?_eq_some_iff.mp hm).1
      have hlen : s'.heap.length = s.heap.length := by
        obtain ⟨-, -, -, s₃, hmc, hs'⟩ := initEnum_ok_inv name e s e' s' h
        obtain ⟨-, -, -, -, -, hl, -, -⟩ := mapCandidates_ok_spec _ s _ s₃ hmc
        rw [hs']
        show (stampClosed s₃ _).heap.length = s.heap.length
        rw [(stampClosed_frame s₃ _).1]
        exact hl
      cases hget : s'.heap[r]? with
      | none =>
        rw [List.getElem?_eq_none_iff] at hget
        omega
      | some mm =>
        have : memberAt s' r = mm := by
          unfold memberAt
          rw [hget]
          rfl
        rw [← this, hst]
    unfold memberWrite
    rw [hsome]
    rfl

/-- Witness for C5 at the `Color` scenario: overwriting `GREEN` on the
closed enumeration and writing `_description` on a closed member both throw
and leave everything unchanged. -/
theorem claim5_witness :
    demoClosedEnum.setField "GREEN" (.member 0) =
      (.error .frozenMutation, demoClosedEnum) ∧
    ∀ r ∈ valuesContents demoClosedEnum demoClosedState,
      memberWrite demoClosedState r (.descr "hacked") =
        (.error .frozenMutation, demoClosedState) :=
  claim5_frozen_after_closure "Color" demoEnum demoRes.2 demoClosedEnum
    demoClosedState rfl "GREEN" (.member 0) (.descr "hacked")

/-- C6: on a closed Enumeration (with the field names pairwise distinct, as
JavaScript object property names are), `byPropName(p)` returns exactly the
reference stored in the field named `p` — the very same object, since the
identity-based variant never rebinds the field; `byDescription(d)` returns
the unique member described `d` when exactly one matches; both are the
first match in declaration order and absent (`none`) when no member
matches.  In the value-based variant (last conjunct) the field is rebound
at closure to the post-merge record, and `byPropName(p)` returns exactly
that rebound value. -/
theorem claim6_lookup_identity
    (name : String) (e : EnumInst) (s : GState) (e' : EnumInst) (s' : GState)
    (h : Enum.initEnum name e s = (.ok e', s'))
    (hnodup : (e.fields.map Prod.fst).Nodup)
    (iname : String) (ie : ImmEnum) (is : ImmState) (ie' : ImmEnum)
    (is' : ImmState)
    (hirun : immInitEnum iname ie is = (.ok ie', is'))
    (inodup : (ie.fields.map Prod.fst).Nodup) :
    (∀ p r, lookupS e.fields p = some (.member r) →
        lookupS e'.fields p = some (.member r) ∧
        Enum.byPropName e' s' p = some r) ∧
    (∀ d r, (valuesContents e' s').filter
        (fun r' => (memberAt s' r').description == d) = [r] →
        Enum.byDescription e' s' d = some r) ∧
    (∀ p, (∀ r ∈ valuesContents e' s', ¬(memberAt s' r).propName = some p) →
        Enum.byPropName e' s' p = none) ∧
    (∀ d, (∀ r ∈ valuesContents e' s', ¬(memberAt s' r).description = d) →
        Enum.byDescription e' s' d = none) ∧
    (∀ p v, lookupS ie.fields p = some (.member v) →
        lookupS ie'.fields p = some (.member (v.mergeProp p)) ∧
        immByPropName ie' is' p = some (v.mergeProp p)) := by
  obtain ⟨-, -, he', -, -, -⟩ := initEnum_ok_inv name e s e' s' h
  have hcnodup : ((candidatesOf e).map Prod.fst).Nodup :=
    List.Nodup.sublist (candidates_fst_sublist e) hnodup
  have hstamp : ∀ pr ∈ candidatesOf e,
      (memberAt s' pr.2).propName = some pr.1 := by
    intro pr hpr
    obtain ⟨m, -, -, hst⟩ :=
      initEnum_member_stamped name e s e' s' h pr.1 pr.2 hpr
    rw [hst]
  refine ⟨?_, ?_, ?_, ?_, ?_⟩
  · intro p r hl
    constructor
    · rw [he']
      exact hl
    · have hmemc := candidatesOf_of_lookup e p r hl
      unfold Enum.byPropName
      rw [valuesContents_after_init name e s e' s' h]
      exact find_first_stamped (candidatesOf e) s' hstamp hcnodup p r hmemc
  · intro d r hfil
    exact find?_of_filter_singleton _ _ r hfil
  · intro p hnone
    unfold Enum.byPropName
    rw [List.find?_eq_none]
    intro r hr
    simpa using hnone r hr
  · intro d hnone
    unfold Enum.byDescription
    rw [List.find?_eq_none]
    intro r hr
    simpa using hnone r hr
  · intro p v hl
    obtain ⟨-, -, hie', -, -, -⟩ := immInitEnum_ok_inv iname ie is ie' is' hirun
    constructor
    · rw [hie']
      exact lookupS_map_mergeField ie.fields p v hl
    · have hicnodup : ((immCandidatesOf ie).map Prod.fst).Nodup :=
        List.Nodup.sublist (immCandidates_fst_sublist ie) inodup
      unfold immByPropName
      rw [immValuesContents_after_init iname ie is ie' is' hirun]
      exact imm_find_first (immCandidatesOf ie) hicnodup p v
        (immCandidatesOf_of_lookup ie p v hl)

/-- Witness for C6 at the two `Color` demos: lookups on the closed
enumerations return the stored field values. -/
theorem claim6_witness :
    (∀ p r, lookupS demoEnum.fields p = some (.member r) →
        lookupS demoClosedEnum.fields p = some (.member r) ∧
        Enum.byPropName demoClosedEnum demoClosedState p = some r) ∧
    (∀ d r, (valuesContents demoClosedEnum demoClosedState).filter
        (fun r' => (memberAt demoClosedState r').description == d) = [r] →
        Enum.byDescription demoClosedEnum demoClosedState d = some r) ∧
    (∀ p, (∀ r ∈ valuesContents demoClosedEnum demoClosedState,
        ¬(memberAt demoClosedState r).propName = some p) →
        Enum.byPropName demoClosedEnum demoClosedState p = none) ∧
    (∀ d, (∀ r ∈ valuesContents demoClosedEnum demoClosedState,
        ¬(memberAt demoClosedState r).description = d) →
        Enum.byDescription demoClosedEnum demoClosedState d = none) ∧
    (∀ p v, lookupS immDemoEnum.fields p = some (.member v) →
        lookupS immDemoClosedEnum.fields p = some (.member (v.mergeProp p)) ∧
        immByPropName immDemoClosedEnum immDemoClosedState p =
          some (v.mergeProp p)) :=
  claim6_lookup_identity "Color" demoEnum demoRes.2 demoClosedEnum
    demoClosedState rfl (by decide) "Color" immDemoEnum immDemoPre
    immDemoClosedEnum immDemoClosedState rfl (by decide)

/-- C7: the `values` getter of a registered Enumeration returns a fresh
array object (a defensive copy): writing any element of the returned array
leaves the registry-backing array untouched, so a subsequent `values` call
(whose result copies the backing array) returns the original contents. -/
theorem claim7_values_defensive_copy
    (e : EnumInst) (s : GState) (nm : String) (b i v : Nat)
    (hname : e.name = some nm)
    (hreg : lookupS s.registry nm = some b)
    (hb : b < s.arrays.length) :
    valuesContents e (arrWrite (valuesCall e s).2 (valuesCall e s).1 i v) =
      valuesContents e s ∧
    (arrWrite (valuesCall e s).2 (valuesCall e s).1 i v).arrays.getD b [] =
      s.arrays.getD b [] := by
  have hback : (arrWrite (valuesCall e s).2 (valuesCall e s).1 i v).arrays.getD
      b [] = s.arrays.getD b [] := by
    show (((s.arrays ++ [valuesContents e s]).set s.arrays.length
      (((s.arrays ++ [valuesContents e s]).getD s.arrays.length []).set i v)).getD
        b []) = s.arrays.getD b []
    rw [getD_set_ne _ _ _ _ _ (by omega)]
    exact getD_append_lt s.arrays [valuesContents e s] b [] hb
  refine ⟨?_, hback⟩
  have hcont : valuesContents e s = s.arrays.getD b [] := by
    unfold valuesContents
    rw [hname]
    rw [Option.some_bind, hreg]
  have hcont2 : valuesContents e
      (arrWrite (valuesCall e s).2 (valuesCall e s).1 i v) =
      (arrWrite (valuesCall e s).2 (valuesCall e s).1 i v).arrays.getD b [] := by
    unfold valuesContents
    rw [hname]
    have hreg2 : lookupS (arrWrite (valuesCall e s).2
        (valuesCall e s).1 i v).registry nm = some b := hreg
    rw [Option.some_bind, hreg2]
  rw [hcont2, hback, hcont]

/-- Witness for C7 at the `Color` scenario: writing element 0 of the array
returned by `values` does not change the backing array or later calls. -/
theorem claim7_witness :
    valuesContents demoClosedEnum
      (arrWrite (valuesCall demoClosedEnum demoClosedState).2
        (valuesCall demoClosedEnum demoClosedState).1 0 99) =
      valuesContents demoClosedEnum demoClosedState ∧
    (arrWrite (valuesCall demoClosedEnum demoClosedState).2
        (valuesCall demoClosedEnum demoClosedState).1 0 99).arrays.getD 0 [] =
      demoClosedState.arrays.getD 0 [] :=
  claim7_values_defensive_copy demoClosedEnum demoClosedState "Color" 0 0 99
    (by decide) (by decide) (by decide)

/-- C8: on a closed Enumeration, a member bound to field `X` whose concrete
Member class is named `T` prints as `"T.X"` (the class name, a dot, then
the propName stamped at closure), and the Enumeration instance itself
prints as its registry name. -/
theorem claim8_string_form
    (name : String) (e : EnumInst) (s : GState) (e' : EnumInst) (s' : GState)
    (h : Enum.initEnum name e s = (.ok e', s')) :
    enumToString e' = name ∧
    ∀ pr ∈ candidatesOf e,
      memberToString s' pr.2 = (memberAt s pr.2).ctorName ++ "." ++ pr.1 := by
  obtain ⟨-, -, he', -, -, -⟩ := initEnum_ok_inv name e s e' s' h
  constructor
  · rw [he']
    rfl
  · intro pr hpr
    obtain ⟨m, hm, -, hst⟩ :=
      initEnum_member_stamped name e s e' s' h pr.1 pr.2 hpr
    unfold memberToString
    rw [hst]
    have hmm : memberAt s pr.2 = m := by
      unfold memberAt
      rw [hm]
      rfl
    rw [hmm]
    rfl

/-- Witness for C8 at the `Color` scenario (the tests expect
`"Color.GREEN"` and `"Color"`). -/
theorem claim8_witness :
    enumToString demoClosedEnum = "Color" ∧
    ∀ pr ∈ candidatesOf demoEnum,
      memberToString demoClosedState pr.2 =
        (memberAt demoRes.2 pr.2).ctorName ++ "." ++ pr.1 :=
  claim8_string_form "Color" demoEnum demoRes.2 demoClosedEnum
    demoClosedState rfl

/-- C9: when `initEnum` fails on the duplicate-description check, the
concrete Member subtype of the first discovered candidate has already been
marked closed as a side effect — the `INITIALIZED` stamp runs before the
description check and is not rolled back — so every later construction
attempt of that Member subtype throws the post-closure instantiation error
even though the Enumeration was never registered under its name. -/
theorem claim9_dup_description_still_closes_subtype
    (name : String) (e : EnumInst) (s : GState) (vs : List Nat) (s₁ : GState)
    (c : String × Nat) (cr : List (String × Nat)) (tn d : String)
    (hfro : e.frozen = false)
    (hreg : lookupS s.registry name = none)
    (hc : candidatesOf e = c :: cr)
    (hmc : mapCandidates (candidatesOf e) s = (.ok vs, s₁))
    (hdup : ¬(vs.map (fun r => (memberAt s r).description)).Nodup) :
    (Enum.initEnum name e s).1 = .error (.duplicateDescription name) ∧
    (memberAt s c.2).ctorType ∈ (Enum.initEnum name e s).2.closed ∧
    EnumValue.construct (memberAt s c.2).ctorType tn d (Enum.initEnum name e s).2 =
      (.error .postClosureInstantiation, (Enum.initEnum name e s).2) ∧
    lookupS (Enum.initEnum name e s).2.registry name = none := by
  have heq := initEnum_dup_eq name e s s₁ vs hfro hreg hmc hdup
  obtain ⟨hvs, -, -, -, -, -, -, -⟩ := mapCandidates_ok_spec _ s vs s₁ hmc
  have hpres := mapCandidates_preserve _ s vs s₁ hmc c.2
  have hclosed : (memberAt s c.2).ctorType ∈ (stampClosed s₁ vs).closed := by
    rw [hvs, hc, List.map_cons]
    show (memberAt s c.2).ctorType ∈
      (stampClosed s₁ (c.2 :: cr.map Prod.snd)).closed
    unfold stampClosed
    simp only []
    rw [hpres.1]
    exact (mem_addClosed s₁.closed _ _).mpr (Or.inl rfl)
  refine ⟨by rw [heq], by rw [heq]; exact hclosed, ?_, ?_⟩
  · rw [heq]
    unfold EnumValue.construct
    rw [contains_iff_memN.mpr hclosed]
    rfl
  · rw [heq]
    show lookupS (stampClosed s₁ vs).registry name = none
    rw [(stampClosed_frame s₁ vs).2.2.1]
    have hfr := (mapCandidates_frame (candidatesOf e) s).2.2.1
    rw [hmc] at hfr
    rw [hfr]
    exact hreg

/-- Witness for C9 at the duplicate-description demo: closure fails, class
`Dup` (tag 5) is nevertheless closed, a new `Dup` member throws, and the
name `"Dup"` stays unregistered. -/
theorem claim9_witness :
    (Enum.initEnum "Dup" dupEnum dupRes.2).1 =
      .error (.duplicateDescription "Dup") ∧
    (memberAt dupRes.2 0).ctorType ∈ (Enum.initEnum "Dup" dupEnum dupRes.2).2.closed ∧
    EnumValue.construct (memberAt dupRes.2 0).ctorType "Dup" "z"
        (Enum.initEnum "Dup" dupEnum dupRes.2).2 =
      (.error .postClosureInstantiation, (Enum.initEnum "Dup" dupEnum dupRes.2).2) ∧
    lookupS (Enum.initEnum "Dup" dupEnum dupRes.2).2.registry "Dup" = none :=
  claim9_dup_description_still_closes_subtype "Dup" dupEnum dupRes.2 dupVs
    dupStamped ("A", 0) [("B", 1)] "Dup" "z" rfl rfl (by decide) rfl (by decide)

/-- C10: closure marks as closed only the runtime type of the first
discovered candidate member; a later candidate of a different concrete
Member subtype leaves that subtype open, and it can still be instantiated
after the enumeration's closure completes. -/
theorem claim10_only_first_candidate_type_closed
    (name : String) (e : EnumInst) (s : GState) (e' : EnumInst) (s' : GState)
    (c : String × Nat) (cr : List (String × Nat)) (t : Nat) (tn d : String)
    (h : Enum.initEnum name e s = (.ok e', s'))
    (hc : candidatesOf e = c :: cr)
    (hmem : ∃ pr ∈ candidatesOf e, (memberAt s pr.2).ctorType = t)
    (hne : t ≠ (memberAt s c.2).ctorType)
    (hopen : t ∉ s.closed) :
    t ∉ s'.closed ∧
    (EnumValue.construct t tn d s').1 = .ok s'.heap.length := by
  have hclosed := initEnum_closed_after name e s e' s' c cr h hc
  have hnotin : t ∉ s'.closed := by
    rw [hclosed]
    intro hin
    rcases (mem_addClosed s.closed _ t).mp hin with heq | hin₂
    · exact hne heq
    · exact hopen hin₂
  refine ⟨hnotin, ?_⟩
  unfold EnumValue.construct
  rw [contains_false_of_not_memN hnotin]
  rfl

/-- Witness for C10 at the mixed-subtype demo: the enumeration holds one
member of class tag 1 (field `A`, the first candidate) and one of class
tag 2 (field `B`); after closure only tag 1 is locked and a new member of
tag 2 still constructs. -/
theorem claim10_witness :
    (2 : Nat) ∉ mixedClosedState.closed ∧
    (EnumValue.construct 2 "TypB" "c" mixedClosedState).1 =
      .ok mixedClosedState.heap.length :=
  claim10_only_first_candidate_type_closed "Mixed" mixedEnum mixedS2
    mixedClosedEnum mixedClosedState ("A", 0) [("B", 1)] 2 "TypB" "c" rfl
    (by decide) (by decide) (by decide) (by decide)
